import Mathlib

/-!
Ngingo: round-robin selection, per-client rate limiting, client identity

A shallow embedding of the request-dispatch core of the Ngingo edge node
(`internal/balancer/roundrobin.go`, `internal/limiter/store.go`,
`internal/util/httpx.go`, `internal/proxy/proxy.go`) and the properties of it
that the specification states.

Conventions of the embedding:

* Go strings are Lean `String`s (sequences of code points; byte strings that are
  not valid UTF-8 are outside the model).
* Go `int` is a signed two's-complement integer of `w` bits (`w = 64` on the
  usual platforms, `w = 32` on 32-bit ones); it is an `Int` here and every
  arithmetic result is wrapped with `wrapInt w`.
* A run-time panic is the `none` of an outer `Option`.
* Pointers that may be `nil` are `Option`s; mutation through a pointer is
  explicit state passing.
* Instants are nanoseconds on the process clock (`Nat`).
* The mutexes of `RoundRobin` and `Store` serialise the operations; the
  embedding is of the serialised operations, one at a time.

What lies outside the repository:

* the Go standard library functions the program calls (`strings.TrimSpace`,
  `strings.Split`, `net.SplitHostPort`, `http.Header.Get/Set/Del`,
  `http.Error`, `time.Since`, the response writer, and the request side of
  `httputil.ReverseProxy.ServeHTTP` with `removeHopByHopHeaders`) are embedded
  from their documented behaviour;
* `url.Parse` is a parameter of `NewRoundRobin`, and the director of
  `httputil.NewSingleHostReverseProxy` a parameter of `Director`;
* the token bucket of `golang.org/x/time/rate` is modelled from the
  specification, over exact rationals.
-/

namespace Ngingo

/-! ## Strings (Go package `strings`) -/

/-- Go `unicode.IsSpace`: the code points with the Unicode White_Space property. -/
def isSpace (c : Char) : Bool :=
  let n := c.toNat
  n == 0x09 || n == 0x0A || n == 0x0B || n == 0x0C || n == 0x0D || n == 0x20 ||
  n == 0x85 || n == 0xA0 || n == 0x1680 || (0x2000 ≤ n && n ≤ 0x200A) ||
  n == 0x2028 || n == 0x2029 || n == 0x202F || n == 0x205F || n == 0x3000

/-- Leading and trailing white space removed from a list of code points. -/
def trimChars (cs : List Char) : List Char :=
  ((cs.dropWhile isSpace).reverse.dropWhile isSpace).reverse

/-- Go `strings.TrimSpace`. -/
def TrimSpace (s : String) : String := ⟨trimChars s.data⟩

/-- The pieces of a list of code points between occurrences of `sep`; there is
always at least one piece. -/
def splitChars (sep : Char) : List Char → List (List Char)
  | [] => [[]]
  | c :: cs =>
    if c = sep then [] :: splitChars sep cs
    else
      match splitChars sep cs with
      | [] => [[c]]
      | p :: ps => (c :: p) :: ps

/-- Go `strings.Split(s, sep)` for a separator of one character, the only form
the program uses (`","`). -/
def Split (s : String) (sep : Char) : List String :=
  (splitChars sep s.data).map String.mk

/-! ## Machine integers -/

/-- The value of a mathematical integer stored in a signed `w`-bit Go `int`. -/
def wrapInt (w : Nat) (x : Int) : Int :=
  (x + 2 ^ (w - 1)) % 2 ^ w - 2 ^ (w - 1)

/-! ## Upstream selector (`internal/balancer/roundrobin.go`) -/

/-- The parts of a parsed `url.URL` the program reads. -/
structure URL where
  Scheme : String
  Host : String
  Path : String
  deriving DecidableEq, Repr

/-- The struct `RoundRobin` (its mutex has no sequential content). -/
structure RoundRobin where
  backends : List URL
  idx : Int
  deriving DecidableEq, Repr

/-- The loop of `NewRoundRobin` over the comma-separated parts, `urls` being the
slice accumulated so far.  `parse` is `url.Parse` of the Go standard library,
the error carrying its message. -/
def NewRoundRobin.loop (parse : String → Except String URL) :
    List String → List URL → Option RoundRobin × Option String
  | [], urls => (some { backends := urls, idx := 0 }, none)
  | p :: ps, urls =>
    let p := TrimSpace p
    if p = "" then NewRoundRobin.loop parse ps urls
    else
      match parse p with
      | .error err => (none, some ("invalid upstream \x27" ++ p ++ "\x27: " ++ err))
      | .ok u => NewRoundRobin.loop parse ps (urls ++ [u])

/-- `NewRoundRobin(raw)`: the pair of the returned pointer (`none` is `nil`) and
the returned error (`none` is `nil`, otherwise the error message). -/
def NewRoundRobin (parse : String → Except String URL) (raw : String) :
    Option RoundRobin × Option String :=
  if TrimSpace raw = "" then (some { backends := [], idx := 0 }, none)
  else NewRoundRobin.loop parse (Split raw ',') []

/-- `(*RoundRobin).Next` on a receiver pointer, for `w`-bit `int`.  The outer
`none` is a run-time panic (index out of range); otherwise the returned
`*url.URL` (`none` is `nil`) and the receiver after the call. -/
def Next (w : Nat) : Option RoundRobin → Option (Option URL × Option RoundRobin)
  | none => some (none, none)
  | some rr =>
    if rr.backends.length = 0 then some (none, some rr)
    else
      let i := Int.tmod rr.idx rr.backends.length
      if 0 ≤ i then
        match rr.backends[i.toNat]? with
        | none => none
        | some u => some (some u, some { rr with idx := wrapInt w (rr.idx + 1) })
      else none

/-- `(*RoundRobin).Count`. -/
def Count (rr : RoundRobin) : Nat := rr.backends.length

/-- The results of `n` consecutive calls of `Next` and the receiver after them;
`none` when one of the calls panics. -/
def calls (w : Nat) : Nat → Option RoundRobin → Option (List (Option URL) × Option RoundRobin)
  | 0, p => some ([], p)
  | n + 1, p =>
    match Next w p with
    | none => none
    | some (u, p1) =>
      match calls w n p1 with
      | none => none
      | some (us, p2) => some (u :: us, p2)

/-- The non-blank entries of a comma-separated list, trimmed, in input order:
what the specification says construction keeps. -/
def entries (raw : String) : List String :=
  ((Split raw ',').map TrimSpace).filter (fun e => e ≠ "")

/-! ## Maps (Go `map[string]V`) -/

/-- A Go map with string keys, as an association list read at its first entry
for a key. -/
abbrev GoMap (V : Type) := List (String × V)

/-- The read `m[k]`, with its `ok` result as the `Option`. -/
def GoMap.get {V : Type} : GoMap V → String → Option V
  | [], _ => none
  | (k1, v) :: m, k => if k1 = k then some v else GoMap.get m k

/-- The builtin `delete(m, k)`. -/
def GoMap.delete {V : Type} (m : GoMap V) (k : String) : GoMap V :=
  m.filter (fun e => e.1 ≠ k)

/-- The assignment `m[k] = v`. -/
def GoMap.set {V : Type} (m : GoMap V) (k : String) (v : V) : GoMap V :=
  (k, v) :: GoMap.delete m k

/-- The keys a `range` over the map visits. -/
def GoMap.keys {V : Type} (m : GoMap V) : List String := m.map Prod.fst

/-! ## HTTP requests and responses (Go packages `net/textproto`, `net/http`, `net`) -/

/-- Go `textproto.validHeaderFieldByte`: the token characters of RFC 7230. -/
def validHeaderFieldByte (c : Char) : Bool :=
  let n := c.toNat
  (48 ≤ n && n ≤ 57) || (65 ≤ n && n ≤ 90) || (97 ≤ n && n ≤ 122) ||
  [33, 35, 36, 37, 38, 39, 42, 43, 45, 46, 94, 95, 96, 124, 126].contains n

/-- The rewriting pass of `textproto.CanonicalMIMEHeaderKey`: upper case for the
first letter and for a letter after a hyphen, lower case for the others. -/
def canonicalChars : Bool → List Char → List Char
  | _, [] => []
  | upper, c :: cs =>
    let c1 := if upper then c.toUpper else c.toLower
    c1 :: canonicalChars (c1 = '-') cs

/-- Go `textproto.CanonicalMIMEHeaderKey`: a key with a character that is not a
token character is returned unchanged. -/
def CanonicalMIMEHeaderKey (s : String) : String :=
  if s.data.all validHeaderFieldByte then ⟨canonicalChars true s.data⟩ else s

/-- Go `http.Header`, a `map[string][]string` keyed by canonical header names. -/
abbrev Header := GoMap (List String)

/-- Go `Header.Get`: the first value of the canonical form of the key, `""` when
there is none. -/
def Header.Get (h : Header) (key : String) : String :=
  match GoMap.get h (CanonicalMIMEHeaderKey key) with
  | some (v :: _) => v
  | _ => ""

/-- Go `Header.Set`: the key's values are replaced by the single value. -/
def Header.Set (h : Header) (key value : String) : Header :=
  GoMap.set h (CanonicalMIMEHeaderKey key) [value]

/-- Go `Header.Del`. -/
def Header.Del (h : Header) (key : String) : Header :=
  GoMap.delete h (CanonicalMIMEHeaderKey key)

/-- The fields of `http.Request` the program reads or writes; `TLS` is whether
`r.TLS != nil`. -/
structure Request where
  Header : Header
  RemoteAddr : String
  Host : String
  TLS : Bool
  deriving DecidableEq, Repr

/-- Position of the first `c` in `cs`. -/
def indexByte (c : Char) : List Char → Option Nat
  | [] => none
  | d :: ds => if d = c then some 0 else (indexByte c ds).map (· + 1)

/-- Position of the last `c` in `cs`. -/
def lastIndexByte (c : Char) : List Char → Option Nat
  | [] => none
  | d :: ds =>
    match lastIndexByte c ds with
    | some i => some (i + 1)
    | none => if d = c then some 0 else none

/-- The final checks of `net.SplitHostPort`: no `[` from position `j` on, no `]`
from position `k` on; the port is what follows the last colon, at `i`. -/
def SplitHostPort.finish (s : List Char) (host : List Char) (i j k : Nat) :
    Except String (String × String) :=
  if (s.drop j).contains '[' then .error "unexpected \x27[\x27 in address"
  else if (s.drop k).contains ']' then .error "unexpected \x27]\x27 in address"
  else .ok (⟨host⟩, ⟨s.drop (i + 1)⟩)

/-- Go `net.SplitHostPort`: `host:port`, `[host]:port` for a literal IPv6 host;
an error carries the reason. -/
def SplitHostPort (hostport : String) : Except String (String × String) :=
  let s := hostport.data
  match lastIndexByte ':' s with
  | none => .error "missing port in address"
  | some i =>
    if s.head? = some '[' then
      match indexByte ']' s with
      | none => .error "missing \x27]\x27 in address"
      | some e =>
        if e + 1 = s.length then .error "missing port in address"
        else if e + 1 = i then
          SplitHostPort.finish s ((s.drop 1).take (e - 1)) i 1 (e + 1)
        else if s.get? (e + 1) = some ':' then .error "too many colons in address"
        else .error "missing port in address"
    else
      let host := s.take i
      if host.contains ':' then .error "too many colons in address"
      else SplitHostPort.finish s host i 0 0

/-! ## Client identity (`internal/util/httpx.go`) -/

/-- `RealClientIP(r, trustedHeader)`. -/
def RealClientIP (r : Request) (trustedHeader : String) : String :=
  let fallback :=
    match SplitHostPort r.RemoteAddr with
    | .ok (host, _) => host
    | .error _ => r.RemoteAddr
  if trustedHeader ≠ "" then
    let ip := TrimSpace (r.Header.Get trustedHeader)
    if ip ≠ "" then ip else fallback
  else fallback

/-- `SchemeOf(r)`. -/
def SchemeOf (r : Request) : String :=
  if r.TLS then "https"
  else
    let proto := r.Header.Get "X-Forwarded-Proto"
    if proto ≠ "" then proto else "http"

/-- `ClientIPFrom(r)`; `parts[0]` exists because `Split` never returns an empty
slice. -/
def ClientIPFrom (r : Request) : String :=
  let xff := r.Header.Get "X-Forwarded-For"
  if xff ≠ "" then
    let parts := Split xff ','
    TrimSpace (parts.headD "")
  else
    match SplitHostPort r.RemoteAddr with
    | .ok (host, _) => host
    | .error _ => r.RemoteAddr

/-! ## Proxy forwarder (`internal/proxy/proxy.go`) -/

/-- The `proxy.Director` that `BuildProxyHandler` installs, applied to the
outbound request `req` while serving the inbound request `r` with the selected
`target`.  `origDirector` is the director of
`httputil.NewSingleHostReverseProxy(target)`. -/
def Director (origDirector : Request → Request) (target : URL) (r : Request)
    (req : Request) : Request :=
  let req1 := origDirector req
  let req2 := { req1 with Host := target.Host }
  let req3 := { req2 with Header := req2.Header.Set "X-Forwarded-Host" r.Host }
  let req4 := { req3 with Header := req3.Header.Set "X-Forwarded-Proto" (SchemeOf r) }
  { req4 with Header := req4.Header.Set "X-Real-IP" (ClientIPFrom r) }

/-! ## Token bucket (`golang.org/x/time/rate`) -/

/-- Modelled from the spec: the token-bucket limiter `rate.Limiter` that
`store.go` imports from `golang.org/x/time/rate` is not under `src/`.  The
specification (section 4.2 and the glossary) gives it a capacity of `burst`
tokens, a refill of `limit` tokens per second that is continuous in the time
elapsed since the last consumption, and a full bucket for a fresh key.  Tokens
and the rate are exact rationals here. -/
structure Limiter where
  limit : ℚ
  burst : Int
  tokens : ℚ
  last : Nat
  deriving DecidableEq

/-- Modelled from the spec: `rate.NewLimiter(r, b)`, missing from `src/`; a new
bucket holds its full capacity. -/
def NewLimiter (r : ℚ) (b : Int) : Limiter :=
  { limit := r, burst := b, tokens := b, last := 0 }

/-- Modelled from the spec: the tokens available at instant `now` (nanoseconds),
the refill since the last consumption capped at the capacity. -/
def Limiter.available (l : Limiter) (now : Nat) : ℚ :=
  min (l.burst : ℚ) (l.tokens + l.limit * (((now - l.last : Nat) : ℚ) / 1000000000))

/-- Modelled from the spec: `(*rate.Limiter).Allow` at instant `now`, missing
from `src/`: one token is consumed when at least one is available after the
refill; otherwise the answer is `false` and the bucket is left as it was. -/
def Limiter.Allow (l : Limiter) (now : Nat) : Limiter × Bool :=
  let t := l.available now
  if 1 ≤ t then ({ l with tokens := t - 1, last := now }, true) else (l, false)

/-! ## Rate limiter store (`internal/limiter/store.go`) -/

/-- Go `time.Minute`, in nanoseconds. -/
def Minute : Int := 60 * 1000000000

/-- Go `time.Since(t)` at instant `now`: the difference of the two instants as a
`time.Duration`, which saturates at the ends of the 64-bit range. -/
def Since (now t : Nat) : Int :=
  max (-(2 ^ 63)) (min (2 ^ 63 - 1) ((now : Int) - (t : Int)))

/-- The struct `clientLimiter`. -/
structure clientLimiter where
  limiter : Limiter
  lastSeen : Nat
  deriving DecidableEq

/-- The struct `Store` (its mutex has no sequential content). -/
structure Store where
  clients : GoMap clientLimiter
  rps : ℚ
  burst : Int
  lifetime : Int

/-- `NewStore(rps, burst)`. -/
def NewStore (rps : ℚ) (burst : Int) : Store :=
  { clients := [], rps := rps, burst := burst, lifetime := 5 * Minute }

/-- `(*Store).getLimiter(key)` with the clock at `now`: the store after the call
and the limiter of the key's entry. -/
def getLimiter (s : Store) (key : String) (now : Nat) : Store × Limiter :=
  match s.clients.get key with
  | some c => ({ s with clients := s.clients.set key { c with lastSeen := now } }, c.limiter)
  | none =>
    let l := NewLimiter s.rps s.burst
    ({ s with clients := s.clients.set key { limiter := l, lastSeen := now } }, l)

/-- The admission check `s.getLimiter(key).Allow()` of the middleware, the clock
reading `now` throughout the check.  `Allow` mutates the limiter that the key's
entry points to. -/
def allowKey (s : Store) (key : String) (now : Nat) : Store × Bool :=
  let (s1, l) := getLimiter s key now
  let (l1, ok) := l.Allow now
  match s1.clients.get key with
  | some c => ({ s1 with clients := s1.clients.set key { c with limiter := l1 } }, ok)
  | none => (s1, ok)

/-- One step of the `range` loop in `CleanupLoop`, at key `k`. -/
def CleanupLoop.visit (now : Nat) (s : Store) (k : String) : Store :=
  match s.clients.get k with
  | some v =>
    if Since now v.lastSeen > s.lifetime then { s with clients := s.clients.delete k }
    else s
  | none => s

/-- The body of `CleanupLoop` for one tick of its ticker, the clock reading
`now` during the pass: the `range` over the map visits every key. -/
def CleanupLoop.pass (s : Store) (now : Nat) : Store :=
  s.clients.keys.foldl (CleanupLoop.visit now) s

/-- `CleanupLoop` over the ticks that have fired, given by their instants. -/
def CleanupLoop (s : Store) (ticks : List Nat) : Store :=
  ticks.foldl CleanupLoop.pass s

/-- The results of successive admission checks for `key`, one at each instant of
the list, and the store after them. -/
def allowKeySeq (key : String) : List Nat → Store → List Bool × Store
  | [], s => ([], s)
  | t :: ts, s =>
    let r := allowKey s key t
    let rest := allowKeySeq key ts r.1
    (r.2 :: rest.1, rest.2)

/-- The results of `n` admission checks for `key` with no time elapsing between
them, all at instant `now`, and the store after them. -/
def allowKeyN (key : String) (now : Nat) (n : Nat) (s : Store) : List Bool × Store :=
  allowKeySeq key (List.replicate n now) s

/-- The limiter that the next admission check for `key` consults: the one of the
key's bucket, or a new one when the key has no bucket. -/
def Store.limiterOf (s : Store) (key : String) : Limiter :=
  match s.clients.get key with
  | some c => c.limiter
  | none => NewLimiter s.rps s.burst

/-- The results of `n` calls of `Allow` on one limiter, all at instant `now`, and
the limiter after them. -/
def Limiter.AllowN (now : Nat) : Nat → Limiter → List Bool × Limiter
  | 0, l => ([], l)
  | n + 1, l =>
    let r := l.Allow now
    let rest := Limiter.AllowN now n r.1
    (r.2 :: rest.1, rest.2)

/-- Whether a bucket last seen at `lastSeen` is past the lifetime `lifetime` at
instant `now`, by the exact difference of the instants. -/
def idleTooLong (lifetime : Int) (now lastSeen : Nat) : Bool :=
  decide ((now : Int) - (lastSeen : Int) > lifetime)

/-- What the specification says a reaper pass at instant `now` leaves of a map
entry: a bucket survives, unchanged, unless it is idle past the lifetime. -/
def keepFresh (lifetime : Int) (now : Nat) : Option clientLimiter → Option clientLimiter
  | some v => if idleTooLong lifetime now v.lastSeen then none else some v
  | none => none

/-- A `http.ResponseWriter`: the header map, the status line once written (the
code and the headers sent with it), and the body written so far. -/
structure ResponseWriter where
  header : Header
  wrote : Option (Nat × Header)
  body : String
  deriving DecidableEq, Repr

/-- Go `ResponseWriter.WriteHeader`: the first call sends the code with the
headers as they are then; later calls change nothing. -/
def ResponseWriter.WriteHeader (w : ResponseWriter) (code : Nat) : ResponseWriter :=
  match w.wrote with
  | some _ => w
  | none => { w with wrote := some (code, w.header) }

/-- Go `ResponseWriter.Write`: an implicit `WriteHeader(200)` when no status has
been written. -/
def ResponseWriter.Write (w : ResponseWriter) (b : String) : ResponseWriter :=
  let w1 := w.WriteHeader 200
  { w1 with body := w1.body ++ b }

/-- Go `http.Error(w, error, code)`. -/
def httpError (w : ResponseWriter) (error : String) (code : Nat) : ResponseWriter :=
  let h1 := w.header.Del "Content-Length"
  let h2 := h1.Set "Content-Type" "text/plain; charset=utf-8"
  let h3 := h2.Set "X-Content-Type-Options" "nosniff"
  let w1 := { w with header := h3 }
  (w1.WriteHeader code).Write (error ++ "\n")

/-- Go `http.StatusTooManyRequests`. -/
def StatusTooManyRequests : Nat := 429

/-- Go `http.StatusText`, at the one code the program passes. -/
def StatusText (code : Nat) : String :=
  if code = 429 then "Too Many Requests" else ""

/-- A `http.Handler` over a downstream state `σ` (everything the handler can
touch apart from the response writer). -/
abbrev Handler (σ : Type) := ResponseWriter → Request → σ → ResponseWriter × σ

/-- The handler `s.Middleware(trustedHeader)(next)` serving request `r` on `w`
with the clock at `now`: the store, the response writer and the downstream state
after it. -/
def Middleware {σ : Type} (s : Store) (trustedHeader : String) (next : Handler σ)
    (w : ResponseWriter) (r : Request) (now : Nat) (st : σ) :
    Store × ResponseWriter × σ :=
  let ip := RealClientIP r trustedHeader
  let a := allowKey s ip now
  if !a.2 then
    let w1 := { w with header := w.header.Set "Retry-After" "1" }
    (a.1, httpError w1 (StatusText StatusTooManyRequests) StatusTooManyRequests, st)
  else
    let res := next w r st
    (a.1, res.1, res.2)

/-- A handler instrumented with a count of its invocations. -/
def counted {σ : Type} (next : Handler σ) : Handler (σ × Nat) :=
  fun w r st => ((next w r st.1).1, (next w r st.1).2, st.2 + 1)

/-! ## Reverse proxy (Go package `net/http/httputil`) and the proxy handler -/

/-- Go `textproto.isASCIISpace`. -/
def isASCIISpace (c : Char) : Bool :=
  c = ' ' || c = '\t' || c = '\n' || c = '\r'

/-- Go `textproto.TrimString`: ASCII white space removed at both ends. -/
def TrimString (s : String) : String :=
  ⟨((s.data.dropWhile isASCIISpace).reverse.dropWhile isASCIISpace).reverse⟩

/-- Go `strings.Join`. -/
def Join : List String → String → String
  | [], _ => ""
  | [a], _ => a
  | a :: b :: rest, sep => a ++ sep ++ Join (b :: rest) sep

/-- The header names that the values of the `Connection` header list: each
value is split at commas and the pieces trimmed, the empty ones skipped.  This
is the list over which the first loop of `httputil.removeHopByHopHeaders`
runs. -/
def connectionNamed (h : Header) : List String :=
  (((GoMap.get h "Connection").getD []).map
    (fun f => ((Split f ',').map TrimString).filter (fun sf => sf ≠ ""))).flatten

/-- Go `httputil.hopHeaders`. -/
def hopHeaders : List String :=
  ["Connection", "Proxy-Connection", "Keep-Alive", "Proxy-Authenticate",
   "Proxy-Authorization", "Te", "Trailer", "Transfer-Encoding", "Upgrade"]

/-- Go `httputil.removeHopByHopHeaders`: the headers named by `Connection` are
deleted, then the fixed hop-by-hop headers. -/
def removeHopByHopHeaders (h : Header) : Header :=
  hopHeaders.foldl Header.Del ((connectionNamed h).foldl Header.Del h)

/-- Go `httpguts.trimOWS`: spaces and tabs removed at both ends. -/
def trimOWS (cs : List Char) : List Char :=
  ((cs.dropWhile (fun c => c = ' ' || c = '\t')).reverse.dropWhile
    (fun c => c = ' ' || c = '\t')).reverse

/-- Go `httpguts.tokenEqual` against an ASCII token: equal up to ASCII case, a
text with a non-ASCII character being equal to no token. -/
def tokenEqual (t1 token : List Char) : Bool :=
  t1.all (fun c => c.toNat < 128) && t1.map Char.toLower == token.map Char.toLower

/-- Go `httpguts.HeaderValuesContainsToken`. -/
def HeaderValuesContainsToken (values : List String) (token : String) : Bool :=
  values.any (fun v => (splitChars ',' v.data).any (fun p => tokenEqual (trimOWS p) token.data))

/-- Go `httputil.upgradeType`. -/
def upgradeType (h : Header) : String :=
  if HeaderValuesContainsToken ((GoMap.get h "Connection").getD []) "Upgrade" then
    h.Get "Upgrade"
  else ""

/-- Go `ascii.IsPrint`. -/
def IsPrint (s : String) : Bool :=
  s.data.all (fun c => 32 ≤ c.toNat && c.toNat ≤ 126)

/-- The request side of Go `httputil.ReverseProxy.ServeHTTP` for a proxy with a
`Director`, serving the inbound request `req`: the director runs on a clone of
`req`, the hop-by-hop headers are removed from the result, `Te`, `Connection`
and `Upgrade` are restored where the protocol needs them, the peer is appended
to `X-Forwarded-For`, and an absent `User-Agent` is set empty.  The result is
the request handed to the transport; `none` when the proxy calls its error
handler instead (an upgrade to a protocol with an unprintable name).  A header
entry with no values stands for Go's `nil` slice. -/
def ReverseProxy.outreq (director : Request → Request) (req : Request) : Option Request :=
  let outreq := director req
  let reqUpType := upgradeType outreq.Header
  if !IsPrint reqUpType then none
  else
    let h1 : Header := removeHopByHopHeaders outreq.Header
    let h2 : Header :=
      if HeaderValuesContainsToken ((GoMap.get req.Header "Te").getD []) "trailers" then
        h1.Set "Te" "trailers"
      else h1
    let h3 : Header :=
      if reqUpType ≠ "" then (h2.Set "Connection" "Upgrade").Set "Upgrade" reqUpType else h2
    let h4 : Header :=
      match SplitHostPort req.RemoteAddr with
      | .ok (clientIP, _) =>
        match GoMap.get h3 "X-Forwarded-For" with
        | none => h3.Set "X-Forwarded-For" clientIP
        | some [] => h3
        | some (p :: ps) => h3.Set "X-Forwarded-For" (Join (p :: ps) ", " ++ ", " ++ clientIP)
      | .error _ => h3
    let h5 : Header :=
      match GoMap.get h4 "User-Agent" with
      | some _ => h4
      | none => h4.Set "User-Agent" ""
    some { outreq with Header := h5 }

/-- What the handler of `BuildProxyHandler` does with a request. -/
inductive ProxyOutcome where
  /-- No target: `http.Error(w, "no upstream configured", http.StatusBadGateway)`. -/
  | noUpstream (w : ResponseWriter)
  /-- The reverse proxy called `proxy.ErrorHandler` without forwarding:
  `http.Error(w, "upstream error", http.StatusBadGateway)`. -/
  | proxyError (w : ResponseWriter)
  /-- The request `outreq` was handed to the transport for `target`. -/
  | forwarded (target : URL) (outreq : Request)
  deriving DecidableEq, Repr

/-- The handler that `BuildProxyHandler(rr)` returns, serving `r` on `w`, up to
the hand-over of the outbound request to the transport: the outcome and the
selector after the call; the outer `none` is a panic of `rr.Next()`.
`origDirector target` is the director of
`httputil.NewSingleHostReverseProxy(target)`, `bits` the width of `int`. -/
def BuildProxyHandler (bits : Nat) (origDirector : URL → Request → Request)
    (rr : Option RoundRobin) (w : ResponseWriter) (r : Request) :
    Option (ProxyOutcome × Option RoundRobin) :=
  match Next bits rr with
  | none => none
  | some (none, rr1) =>
    some (.noUpstream (httpError w "no upstream configured" 502), rr1)
  | some (some target, rr1) =>
    match ReverseProxy.outreq (Director (origDirector target) target r) r with
    | none => some (.proxyError (httpError w "upstream error" 502), rr1)
    | some outreq => some (.forwarded target outreq, rr1)

/-! ## Facts about the string functions -/

theorem splitChars_ne_nil (sep : Char) (cs : List Char) : splitChars sep cs ≠ [] := by
  cases cs with
  | nil => simp [splitChars]
  | cons c cs =>
    unfold splitChars
    split
    · simp
    · split <;> simp

/-- The first piece of a split is the text before the first separator. -/
theorem splitChars_head (sep : Char) (cs : List Char) :
    (splitChars sep cs).head? = some (cs.takeWhile (fun c => c ≠ sep)) := by
  induction cs with
  | nil => simp [splitChars]
  | cons c cs ih =>
    unfold splitChars
    by_cases h : c = sep
    · simp [h]
    · simp only [h, if_false]
      cases hs : splitChars sep cs with
      | nil => exact absurd hs (splitChars_ne_nil sep cs)
      | cons p ps =>
        rw [hs] at ih
        simp only [List.head?_cons, Option.some.injEq] at ih
        simp [List.takeWhile_cons, h, ih]

/-- Joining the pieces of a split with the separator gives the text back. -/
theorem splitChars_intercalate (sep : Char) (cs : List Char) :
    List.intercalate [sep] (splitChars sep cs) = cs := by
  induction cs with
  | nil => simp [splitChars, List.intercalate]
  | cons c cs ih =>
    unfold splitChars
    by_cases h : c = sep
    · simp only [h, if_true]
      cases hs : splitChars sep cs with
      | nil => exact absurd hs (splitChars_ne_nil sep cs)
      | cons p ps =>
        rw [hs] at ih
        simp only [List.intercalate, List.intersperse, List.flatten] at ih ⊢
        simp [ih]
    · simp only [h, if_false]
      cases hs : splitChars sep cs with
      | nil => exact absurd hs (splitChars_ne_nil sep cs)
      | cons p ps =>
        rw [hs] at ih
        cases ps with
        | nil =>
          simp only [List.intercalate, List.intersperse, List.flatten] at ih ⊢
          simp at ih ⊢
          exact ih
        | cons q qs =>
          simp only [List.intercalate, List.intersperse, List.flatten] at ih ⊢
          simp at ih ⊢
          exact ih

/-- No piece of a split contains the separator. -/
theorem splitChars_no_sep (sep : Char) (cs : List Char) :
    ∀ p ∈ splitChars sep cs, sep ∉ p := by
  induction cs with
  | nil => simp [splitChars]
  | cons c cs ih =>
    unfold splitChars
    by_cases h : c = sep
    · simp only [h, if_true]
      intro p hp
      rcases List.mem_cons.1 hp with rfl | hp
      · simp
      · exact ih p hp
    · simp only [h, if_false]
      cases hs : splitChars sep cs with
      | nil => exact absurd hs (splitChars_ne_nil sep cs)
      | cons q qs =>
        rw [hs] at ih
        intro p hp
        rcases List.mem_cons.1 hp with rfl | hp
        · intro hm
          rcases List.mem_cons.1 hm with e | hm
          · exact h e.symm
          · exact ih q (List.mem_cons_self _ _) hm
        · exact ih p (List.mem_cons_of_mem _ hp)

/-! ## Round robin: rotation -/

theorem wrapInt_of_lt (w : Nat) (hw : 1 ≤ w) (x : Int) (h0 : 0 ≤ x)
    (hx : x < 2 ^ (w - 1)) : wrapInt w x = x := by
  unfold wrapInt
  have hp : (2 : Int) ^ w = 2 * 2 ^ (w - 1) := by
    obtain ⟨v, rfl⟩ : ∃ v, w = v + 1 := ⟨w - 1, by omega⟩
    simp [pow_succ, mul_comm]
  rw [hp]
  generalize (2 : Int) ^ (w - 1) = P at *
  rw [Int.emod_eq_of_lt (by omega) (by omega)]
  omega

/-- The wrap at the top of the range: one more than the largest `int` is the
smallest `int`. -/
theorem wrapInt_top (w : Nat) (hw : 1 ≤ w) : wrapInt w (2 ^ (w - 1)) = -(2 ^ (w - 1)) := by
  unfold wrapInt
  have hp : (2 : Int) ^ w = 2 * 2 ^ (w - 1) := by
    obtain ⟨v, rfl⟩ : ∃ v, w = v + 1 := ⟨w - 1, by omega⟩
    simp [pow_succ, mul_comm]
  rw [hp]
  have h2 : ((2 : Int) ^ (w - 1) + 2 ^ (w - 1)) = 2 * 2 ^ (w - 1) := by ring
  rw [h2, Int.emod_self]
  simp

/-- One call of `Next` with a non-negative counter on a non-empty list. -/
theorem Next_of_nonneg (w : Nat) (bs : List URL) (hbs : bs ≠ []) (i : Nat) :
    Next w (some { backends := bs, idx := (i : Int) }) =
      some (bs[i % bs.length]?,
        some { backends := bs, idx := wrapInt w ((i : Int) + 1) }) := by
  have hn : 0 < bs.length := List.length_pos.2 hbs
  have hlt : i % bs.length < bs.length := Nat.mod_lt _ hn
  have ht : Int.tmod (i : Int) (bs.length : Int) = ((i % bs.length : Nat) : Int) := by
    rw [Int.tmod_eq_emod (by omega) (by omega)]
    simp
  simp only [Next]
  rw [if_neg (by omega)]
  simp only [ht]
  rw [if_pos (by omega), Int.toNat_ofNat, List.getElem?_eq_getElem hlt]

/-- As long as the counter stays below `2 ^ (w - 1)`, `k` consecutive calls
starting at counter `i` return `backends[(i + j) mod n]` for `j = 0, …, k - 1`
and leave the counter at `i + k`. -/
theorem calls_in_range (w : Nat) (hw : 1 ≤ w) (bs : List URL) (hbs : bs ≠ []) :
    ∀ (k i : Nat), ((i + k : Nat) : Int) < 2 ^ (w - 1) →
      calls w k (some { backends := bs, idx := (i : Int) }) =
        some ((List.range k).map (fun j => bs[(i + j) % bs.length]?),
          some { backends := bs, idx := ((i + k : Nat) : Int) }) := by
  intro k
  induction k with
  | zero => intro i _; simp [calls]
  | succ k ih =>
    intro i h
    have h1 : wrapInt w ((i : Int) + 1) = ((i + 1 : Nat) : Int) := by
      rw [wrapInt_of_lt w hw _ (by omega) (by push_cast at h ⊢; omega)]
      push_cast; rfl
    have h2 : (((i + 1) + k : Nat) : Int) < 2 ^ (w - 1) := by
      have : i + 1 + k = i + (k + 1) := by omega
      rw [this]; exact h
    simp only [calls, Next_of_nonneg w bs hbs i, h1, ih (i + 1) h2]
    rw [List.range_succ_eq_map]
    simp only [List.map_cons, List.map_map, Nat.add_zero]
    have e1 : i + 1 + k = i + (k + 1) := by omega
    have e2 : ((fun j => bs[(i + j) % bs.length]?) ∘ Nat.succ) =
        (fun j => bs[(i + 1 + j) % bs.length]?) := by
      funext j
      simp only [Function.comp, Nat.succ_eq_add_one]
      have : i + (j + 1) = i + 1 + j := by omega
      rw [this]
    rw [e1, e2]

/-- Consecutive runs of calls compose. -/
theorem calls_add (w : Nat) (a b : Nat) (p : Option RoundRobin) :
    calls w (a + b) p =
      match calls w a p with
      | none => none
      | some (us, p1) =>
        match calls w b p1 with
        | none => none
        | some (vs, p2) => some (us ++ vs, p2) := by
  induction a generalizing p with
  | zero =>
    simp only [Nat.zero_add, calls]
    cases calls w b p with
    | none => rfl
    | some r => simp
  | succ a ih =>
    have e : a + 1 + b = (a + b) + 1 := by omega
    rw [e]
    simp only [calls]
    cases hN : Next w p with
    | none => rfl
    | some r =>
      obtain ⟨u, p1⟩ := r
      simp only [ih p1]
      cases calls w a p1 with
      | none => rfl
      | some r1 =>
        obtain ⟨us, p2⟩ := r1
        simp only
        cases calls w b p2 with
        | none => rfl
        | some r2 => simp

/-- Past the top of the `int` range: when the remainder of the smallest `int` by
the number of targets is negative, the first `2 ^ (w - 1)` calls succeed and
leave the counter at the smallest `int`, and the call after them panics. -/
theorem calls_past_wrap (w : Nat) (hw : 1 ≤ w) (bs : List URL) (hbs : bs ≠ [])
    (hneg : Int.tmod (-(2 ^ (w - 1))) (bs.length : Int) < 0) :
    (∃ us, calls w (2 ^ (w - 1)) (some { backends := bs, idx := 0 }) =
        some (us, some { backends := bs, idx := -(2 ^ (w - 1)) })) ∧
    calls w (2 ^ (w - 1) + 1) (some { backends := bs, idx := 0 }) = none := by
  have hpos : 1 ≤ 2 ^ (w - 1) := Nat.one_le_two_pow
  have hcast : (((2 ^ (w - 1) - 1 : Nat)) : Int) = 2 ^ (w - 1) - 1 := by
    rw [Nat.cast_sub hpos]; push_cast; rfl
  have hrun := calls_in_range w hw bs hbs (2 ^ (w - 1) - 1) 0 (by
    rw [Nat.zero_add, hcast]; omega)
  rw [Nat.zero_add, hcast] at hrun
  have hlast : Next w (some { backends := bs, idx := (2 : Int) ^ (w - 1) - 1 }) =
      some (bs[(2 ^ (w - 1) - 1) % bs.length]?,
        some { backends := bs, idx := -(2 ^ (w - 1)) }) := by
    have h := Next_of_nonneg w bs hbs (2 ^ (w - 1) - 1)
    rw [hcast] at h
    rw [h]
    have : (2 : Int) ^ (w - 1) - 1 + 1 = 2 ^ (w - 1) := by ring
    rw [this, wrapInt_top w hw]
  have hpanic : Next w (some { backends := bs, idx := -((2 : Int) ^ (w - 1)) }) = none := by
    have hn : 0 < bs.length := List.length_pos.2 hbs
    simp only [Next]
    rw [if_neg (by omega), if_neg (by omega)]
  have hfull : calls w (2 ^ (w - 1)) (some { backends := bs, idx := 0 }) =
      some ((List.range (2 ^ (w - 1) - 1)).map (fun j => bs[(0 + j) % bs.length]?) ++
          [bs[(2 ^ (w - 1) - 1) % bs.length]?],
        some { backends := bs, idx := -(2 ^ (w - 1)) }) := by
    have e : 2 ^ (w - 1) = (2 ^ (w - 1) - 1) + 1 := by omega
    rw [e, calls_add]
    have h0 : ((0 : Nat) : Int) = 0 := rfl
    rw [h0] at hrun
    rw [hrun]
    simp only [calls, hlast]
    have e2 : 2 ^ (w - 1) - 1 + 1 - 1 = 2 ^ (w - 1) - 1 := by omega
    simp only [e2]
  refine ⟨⟨_, hfull⟩, ?_⟩
  rw [calls_add, hfull]
  simp only [calls, hpanic]

/-- C1 (the code at the input where it departs from the claim).  With three
targets `[A, B, C]` and the counter starting at 0, on a platform with 64-bit
`int` the first `2 ^ 63` calls of `Next` succeed and wrap the counter to
`-2 ^ 63`, and the next call, which the claim says returns
`targets[2 ^ 63 mod 3] = C`, panics with an index out of range; the same happens
with 32-bit `int` after `2 ^ 31` calls. -/
theorem Next_panics_after_counter_wraps (A B C : URL) :
    ((∃ us, calls 64 (2 ^ 63) (some { backends := [A, B, C], idx := 0 }) =
        some (us, some { backends := [A, B, C], idx := -(2 ^ 63) })) ∧
      calls 64 (2 ^ 63 + 1) (some { backends := [A, B, C], idx := 0 }) = none) ∧
    ((∃ us, calls 32 (2 ^ 31) (some { backends := [A, B, C], idx := 0 }) =
        some (us, some { backends := [A, B, C], idx := -(2 ^ 31) })) ∧
      calls 32 (2 ^ 31 + 1) (some { backends := [A, B, C], idx := 0 }) = none) :=
  ⟨calls_past_wrap 64 (by decide) [A, B, C] (by simp)
      (by simp only [List.length_cons, List.length_nil]; decide),
   calls_past_wrap 32 (by decide) [A, B, C] (by simp)
      (by simp only [List.length_cons, List.length_nil]; decide)⟩

/-- The rotation while the counter is in range: for a selector with `n ≥ 1`
targets and counter 0, and every `k < 2 ^ (w - 1)`, the first `k` calls succeed
and leave the counter at `k`, the `(k+1)`-th call returns `targets[k mod n]`, and
it leaves the counter at `k + 1` unless `k` is the largest `int`.  For
`[A, B, C]` six calls give `A, B, C, A, B, C`. -/
theorem Next_rotation_in_range (w : Nat) (hw : 1 ≤ w) (bs : List URL) (hbs : bs ≠ [])
    (k : Nat) (hk : (k : Int) < 2 ^ (w - 1)) :
    (calls w k (some { backends := bs, idx := 0 }) =
        some ((List.range k).map (fun j => bs[j % bs.length]?),
          some { backends := bs, idx := (k : Int) })) ∧
    (∃ u rr, bs[k % bs.length]? = some u ∧
      Next w (some { backends := bs, idx := (k : Int) }) = some (some u, some rr) ∧
      rr.backends = bs ∧ ((k : Int) + 1 < 2 ^ (w - 1) → rr.idx = (k : Int) + 1)) ∧
    (∀ A B C : URL, calls 64 6 (some { backends := [A, B, C], idx := 0 }) =
      some ([some A, some B, some C, some A, some B, some C],
        some { backends := [A, B, C], idx := 6 })) := by
  refine ⟨?_, ?_, ?_⟩
  · have h := calls_in_range w hw bs hbs k 0 (by simpa using hk)
    simpa using h
  · have hn : 0 < bs.length := List.length_pos.2 hbs
    have hlt : k % bs.length < bs.length := Nat.mod_lt _ hn
    refine ⟨bs[k % bs.length], { backends := bs, idx := wrapInt w ((k : Int) + 1) },
      List.getElem?_eq_getElem hlt, ?_, rfl, ?_⟩
    · rw [Next_of_nonneg w bs hbs k, List.getElem?_eq_getElem hlt]
    · intro h
      show wrapInt w ((k : Int) + 1) = (k : Int) + 1
      exact wrapInt_of_lt w hw _ (by omega) h
  · intro A B C
    have h := calls_in_range 64 (by decide) [A, B, C] (by simp) 6 0 (by norm_num)
    simpa [List.range_succ] using h

/-- The rotation at a concrete selector: two targets, counter 5, 64-bit `int`. -/
theorem Next_rotation_in_range_witness :
    ∃ u, Next 64 (some { backends := [⟨"http", "a", ""⟩, ⟨"http", "b", ""⟩], idx := 5 }) =
      some (some u, some { backends := [⟨"http", "a", ""⟩, ⟨"http", "b", ""⟩], idx := 6 }) := by
  obtain ⟨_, ⟨u, rr, _, h, hb, hi⟩, _⟩ :=
    Next_rotation_in_range 64 (by decide) [⟨"http", "a", ""⟩, ⟨"http", "b", ""⟩] (by simp) 5
      (by norm_num)
  refine ⟨u, ?_⟩
  have hidx : rr.idx = 6 := by
    have := hi (by norm_num)
    simpa using this
  have hrr : rr = { backends := [⟨"http", "a", ""⟩, ⟨"http", "b", ""⟩], idx := 6 } := by
    cases rr
    simp_all
  rw [← hrr]
  exact h

/-! ## Round robin: construction -/

theorem trimChars_eq_nil_iff (cs : List Char) :
    trimChars cs = [] ↔ ∀ c ∈ cs, isSpace c = true := by
  unfold trimChars
  rw [List.reverse_eq_nil_iff, List.dropWhile_eq_nil_iff]
  constructor
  · intro h
    have h1 : cs.dropWhile isSpace = [] := by
      cases hd : cs.dropWhile isSpace with
      | nil => rfl
      | cons d ds =>
        have hne : cs.dropWhile isSpace ≠ [] := by simp [hd]
        have hhead := List.head_dropWhile_not isSpace cs hne
        have hmem : d ∈ (cs.dropWhile isSpace).reverse := by simp [hd]
        have := h d hmem
        simp [hd] at hhead
        simp [hhead] at this
    exact List.dropWhile_eq_nil_iff.1 h1
  · intro h c hc
    have hc1 : c ∈ cs.dropWhile isSpace := List.mem_reverse.1 hc
    exact h c ((List.dropWhile_sublist isSpace).subset hc1)

theorem TrimSpace_eq_empty_iff (s : String) :
    TrimSpace s = "" ↔ ∀ c ∈ s.data, isSpace c = true := by
  rw [← trimChars_eq_nil_iff]
  unfold TrimSpace
  constructor
  · intro h
    have := congrArg String.data h
    simpa using this
  · intro h
    rw [h]

/-- Every character of a piece of a split is a character of the text. -/
theorem splitChars_subset (sep : Char) (cs : List Char) :
    ∀ p ∈ splitChars sep cs, ∀ c ∈ p, c ∈ cs := by
  induction cs with
  | nil => simp [splitChars]
  | cons d ds ih =>
    unfold splitChars
    by_cases h : d = sep
    · simp only [h, if_true]
      intro p hp c hc
      rcases List.mem_cons.1 hp with rfl | hp
      · simp at hc
      · exact List.mem_cons_of_mem _ (ih p hp c hc)
    · simp only [h, if_false]
      cases hs : splitChars sep ds with
      | nil => exact absurd hs (splitChars_ne_nil sep ds)
      | cons q qs =>
        rw [hs] at ih
        intro p hp c hc
        rcases List.mem_cons.1 hp with rfl | hp
        · rcases List.mem_cons.1 hc with rfl | hc
          · exact List.mem_cons_self _ _
          · exact List.mem_cons_of_mem _ (ih q (List.mem_cons_self _ _) c hc)
        · exact List.mem_cons_of_mem _ (ih p (List.mem_cons_of_mem _ hp) c hc)

/-- A text that trims to nothing has no non-blank entry. -/
theorem entries_of_blank (raw : String) (h : TrimSpace raw = "") : entries raw = [] := by
  rw [TrimSpace_eq_empty_iff] at h
  unfold entries
  rw [List.filter_eq_nil_iff]
  intro e he
  obtain ⟨p, hp, rfl⟩ := List.mem_map.1 he
  unfold Split at hp
  obtain ⟨q, hq, rfl⟩ := List.mem_map.1 hp
  have : TrimSpace (String.mk q) = "" := by
    rw [TrimSpace_eq_empty_iff]
    intro c hc
    exact h c (splitChars_subset ',' raw.data q hq c hc)
  simp [this]

/-- The loop of `NewRoundRobin` against the list of non-blank entries: either it
stops at the first entry that does not parse, with the error naming it, or it
appends the parsed entries in order. -/
theorem NewRoundRobin_loop_spec (parse : String → Except String URL) :
    ∀ (ps : List String) (urls : List URL),
      (∃ pre e post m,
        (ps.map TrimSpace).filter (fun e => e ≠ "") = pre ++ e :: post ∧
        (∀ x ∈ pre, ∃ u, parse x = .ok u) ∧ parse e = .error m ∧
        NewRoundRobin.loop parse ps urls =
          (none, some ("invalid upstream \x27" ++ e ++ "\x27: " ++ m))) ∨
      (∃ us,
        List.Forall₂ (fun e u => parse e = .ok u)
          ((ps.map TrimSpace).filter (fun e => e ≠ "")) us ∧
        NewRoundRobin.loop parse ps urls =
          (some { backends := urls ++ us, idx := 0 }, none)) := by
  intro ps
  induction ps with
  | nil =>
    intro urls
    right
    exact ⟨[], by simp, by simp [NewRoundRobin.loop]⟩
  | cons p ps ih =>
    intro urls
    by_cases hp : TrimSpace p = ""
    · have hl : NewRoundRobin.loop parse (p :: ps) urls = NewRoundRobin.loop parse ps urls := by
        simp [NewRoundRobin.loop, hp]
      have hf : ((p :: ps).map TrimSpace).filter (fun e => e ≠ "") =
          (ps.map TrimSpace).filter (fun e => e ≠ "") := by
        simp [hp]
      rw [hl, hf]
      exact ih urls
    · have hf : ((p :: ps).map TrimSpace).filter (fun e => e ≠ "") =
          TrimSpace p :: (ps.map TrimSpace).filter (fun e => e ≠ "") := by
        simp [hp]
      rw [hf]
      cases hparse : parse (TrimSpace p) with
      | error m =>
        left
        refine ⟨[], TrimSpace p, _, m, rfl, by simp, hparse, ?_⟩
        simp [NewRoundRobin.loop, hp, hparse]
      | ok u =>
        have hl : NewRoundRobin.loop parse (p :: ps) urls =
            NewRoundRobin.loop parse ps (urls ++ [u]) := by
          simp [NewRoundRobin.loop, hp, hparse]
        rw [hl]
        rcases ih (urls ++ [u]) with ⟨pre, e, post, m, h1, h2, h3, h4⟩ | ⟨us, h1, h2⟩
        · left
          refine ⟨TrimSpace p :: pre, e, post, m, by rw [h1]; rfl, ?_, h3, h4⟩
          intro x hx
          rcases List.mem_cons.1 hx with rfl | hx
          · exact ⟨u, hparse⟩
          · exact h2 x hx
        · right
          refine ⟨u :: us, List.Forall₂.cons hparse h1, ?_⟩
          rw [h2]
          simp

/-- The two outcomes of `NewRoundRobin` against the list of non-blank entries. -/
theorem NewRoundRobin_cases (parse : String → Except String URL) (raw : String) :
    (∃ pre e post m,
      entries raw = pre ++ e :: post ∧
      (∀ x ∈ pre, ∃ u, parse x = .ok u) ∧ parse e = .error m ∧
      NewRoundRobin parse raw =
        (none, some ("invalid upstream \x27" ++ e ++ "\x27: " ++ m))) ∨
    (∃ us,
      List.Forall₂ (fun e u => parse e = .ok u) (entries raw) us ∧
      NewRoundRobin parse raw = (some { backends := us, idx := 0 }, none)) := by
  by_cases hb : TrimSpace raw = ""
  · right
    refine ⟨[], ?_, ?_⟩
    · rw [entries_of_blank raw hb]
      exact List.Forall₂.nil
    · simp [NewRoundRobin, hb]
  · have hN : NewRoundRobin parse raw = NewRoundRobin.loop parse (Split raw ',') [] := by
      simp [NewRoundRobin, hb]
    rw [hN]
    have h := NewRoundRobin_loop_spec parse (Split raw ',') []
    simpa [entries] using h

theorem forall₂_parse_ok {parse : String → Except String URL} {es : List String}
    {us : List URL} (h : List.Forall₂ (fun e u => parse e = .ok u) es us) :
    es.length = us.length ∧ ∀ e ∈ es, ∃ u, parse e = .ok u := by
  induction h with
  | nil => simp
  | cons hd _ ih =>
    refine ⟨by simp [ih.1], ?_⟩
    intro e he
    rcases List.mem_cons.1 he with rfl | he
    · exact ⟨_, hd⟩
    · exact ih.2 e he

/-- C6.  `NewRoundRobin(raw)` against the non-blank entries of `raw` (the pieces
between commas, trimmed, the empty ones skipped): it returns an error exactly
when some entry fails to parse; then no selector is returned and the message
contains the first such entry; otherwise it returns no error and a selector
whose targets are the parsed entries in input order, so `Count()` is the number
of non-blank entries. -/
theorem NewRoundRobin_spec (parse : String → Except String URL) (raw : String) :
    ((NewRoundRobin parse raw).2 ≠ none ↔ ∃ e ∈ entries raw, ∃ m, parse e = .error m) ∧
    ((∃ pre e post m msg,
        entries raw = pre ++ e :: post ∧
        (∀ x ∈ pre, ∃ u, parse x = .ok u) ∧ parse e = .error m ∧
        NewRoundRobin parse raw = (none, some msg) ∧
        msg = "invalid upstream \x27" ++ e ++ "\x27: " ++ m ∧
        e.data <:+: msg.data) ∨
      (∃ rr,
        NewRoundRobin parse raw = (some rr, none) ∧
        List.Forall₂ (fun e u => parse e = .ok u) (entries raw) rr.backends ∧
        rr.idx = 0 ∧ Count rr = (entries raw).length)) := by
  rcases NewRoundRobin_cases parse raw with ⟨pre, e, post, m, h1, h2, h3, h4⟩ | ⟨us, h1, h2⟩
  · refine ⟨?_, Or.inl ⟨pre, e, post, m, _, h1, h2, h3, h4, rfl, ?_⟩⟩
    · rw [h4]
      simp only [ne_eq, reduceCtorEq, not_false_eq_true, true_iff]
      exact ⟨e, by simp [h1], m, h3⟩
    · refine ⟨"invalid upstream \x27".data, ("\x27: " ++ m).data, ?_⟩
      simp [String.data_append]
  · refine ⟨?_, Or.inr ⟨_, h2, h1, rfl, ?_⟩⟩
    · rw [h2]
      simp only [ne_eq, not_true_eq_false, false_iff]
      rintro ⟨e, he, m, hm⟩
      obtain ⟨u, hu⟩ := (forall₂_parse_ok h1).2 e he
      rw [hm] at hu
      cases hu
    · simp [Count, (forall₂_parse_ok h1).1]

/-- A selector without targets: any number of calls all return `nil`, none
panics, and the selector is left as it was. -/
theorem calls_of_no_targets (w : Nat) (rr : RoundRobin) (h : rr.backends = []) :
    ∀ n, calls w n (some rr) = some (List.replicate n none, some rr) := by
  have hN : Next w (some rr) = some (none, some rr) := by
    simp [Next, h]
  intro n
  induction n with
  | zero => simp [calls]
  | succ n ih => simp [calls, hN, ih, List.replicate_succ]

/-- C7.  When every comma-separated entry of the input is blank (the empty
string included), `NewRoundRobin` succeeds with a selector with `Count() = 0`;
and on every selector with zero targets, any number of calls of `Next` all
report `nil`, none fails, and the selector is unchanged. -/
theorem NewRoundRobin_blank_and_Next_empty (parse : String → Except String URL)
    (raw : String) (h : ∀ p ∈ Split raw ',', TrimSpace p = "") :
    (∃ rr, NewRoundRobin parse raw = (some rr, none) ∧ Count rr = 0) ∧
    (∀ (w : Nat) (rr : RoundRobin), Count rr = 0 →
      ∀ n, calls w n (some rr) = some (List.replicate n none, some rr)) := by
  have hent : entries raw = [] := by
    unfold entries
    rw [List.filter_eq_nil_iff]
    intro e he
    obtain ⟨p, hp, rfl⟩ := List.mem_map.1 he
    simp [h p hp]
  constructor
  · rcases NewRoundRobin_cases parse raw with ⟨pre, e, post, m, h1, _⟩ | ⟨us, h1, h2⟩
    · rw [hent] at h1
      simp at h1
    · rw [hent] at h1
      cases h1
      exact ⟨_, h2, rfl⟩
  · intro w rr hc n
    exact calls_of_no_targets w rr (List.length_eq_zero.1 hc) n

/-- C7 at the input `" , ,  "`, whose three entries are blank. -/
theorem NewRoundRobin_blank_and_Next_empty_witness :
    (∃ rr, NewRoundRobin (fun _ => Except.error "unused") " , ,  " = (some rr, none) ∧
      Count rr = 0) ∧
    calls 64 3 (some { backends := [], idx := 0 }) =
      some ([none, none, none], some { backends := [], idx := 0 }) :=
  ⟨(NewRoundRobin_blank_and_Next_empty (fun _ => Except.error "unused") " , ,  "
      (by decide)).1,
   (NewRoundRobin_blank_and_Next_empty (fun _ => Except.error "unused") " , ,  "
      (by decide)).2 64 { backends := [], idx := 0 } rfl 3⟩

/-! ## Maps and headers -/

theorem GoMap.get_delete_self {V : Type} (m : GoMap V) (k : String) :
    GoMap.get (GoMap.delete m k) k = none := by
  induction m with
  | nil => rfl
  | cons e m ih =>
    obtain ⟨k1, v⟩ := e
    by_cases h : k1 = k
    · simpa [GoMap.delete, List.filter_cons, h] using ih
    · simpa [GoMap.delete, List.filter_cons, h, GoMap.get] using ih

theorem GoMap.get_delete_ne {V : Type} (m : GoMap V) (k k2 : String) (hne : k2 ≠ k) :
    GoMap.get (GoMap.delete m k) k2 = GoMap.get m k2 := by
  induction m with
  | nil => rfl
  | cons e m ih =>
    obtain ⟨k1, v⟩ := e
    by_cases h : k1 = k
    · subst h
      have h2 : k1 ≠ k2 := fun e => hne e.symm
      simpa [GoMap.delete, List.filter_cons, GoMap.get, h2] using ih
    · by_cases h2 : k1 = k2
      · subst h2
        simp [GoMap.delete, List.filter_cons, h, GoMap.get]
      · simpa [GoMap.delete, List.filter_cons, h, GoMap.get, h2] using ih

theorem GoMap.get_set_self {V : Type} (m : GoMap V) (k : String) (v : V) :
    GoMap.get (GoMap.set m k v) k = some v := by
  simp [GoMap.set, GoMap.get]

theorem GoMap.get_set_ne {V : Type} (m : GoMap V) (k k2 : String) (v : V) (hne : k2 ≠ k) :
    GoMap.get (GoMap.set m k v) k2 = GoMap.get m k2 := by
  have h : k ≠ k2 := fun e => hne e.symm
  simp [GoMap.set, GoMap.get, h, GoMap.get_delete_ne m k k2 hne]

/-- A header reads back the value it was set to. -/
theorem Header.Get_Set_self (h : Header) (key value : String) :
    Header.Get (Header.Set h key value) key = value := by
  simp [Header.Get, Header.Set, GoMap.get_set_self]

/-- Setting a header leaves the headers of another canonical name as they were. -/
theorem Header.Get_Set_ne (h : Header) (key key2 value : String)
    (hne : CanonicalMIMEHeaderKey key2 ≠ CanonicalMIMEHeaderKey key) :
    Header.Get (Header.Set h key value) key2 = Header.Get h key2 := by
  simp [Header.Get, Header.Set, GoMap.get_set_ne _ _ _ _ hne]

/-! ## Peer addresses -/

theorem lastIndexByte_none (c : Char) (s : List Char) (h : lastIndexByte c s = none) :
    c ∉ s := by
  induction s with
  | nil => simp
  | cons d ds ih =>
    simp only [lastIndexByte] at h
    cases hl : lastIndexByte c ds with
    | some j => rw [hl] at h; cases h
    | none =>
      rw [hl] at h
      by_cases hd : d = c
      · simp [hd] at h
      · intro hm
        rcases List.mem_cons.1 hm with e | hm
        · exact hd e.symm
        · exact ih hl hm

/-- The last occurrence cuts the text in two around it. -/
theorem lastIndexByte_some (c : Char) (s : List Char) (i : Nat)
    (h : lastIndexByte c s = some i) :
    s = s.take i ++ c :: s.drop (i + 1) ∧ c ∉ s.drop (i + 1) := by
  induction s generalizing i with
  | nil => simp [lastIndexByte] at h
  | cons d ds ih =>
    simp only [lastIndexByte] at h
    cases hl : lastIndexByte c ds with
    | some j =>
      rw [hl] at h
      cases h
      obtain ⟨h1, h2⟩ := ih j hl
      refine ⟨?_, by simpa using h2⟩
      simp only [List.take_succ_cons, List.drop_succ_cons, List.cons_append]
      rw [← h1]
    | none =>
      rw [hl] at h
      by_cases hd : d = c
      · simp only [hd, if_true, Option.some.injEq] at h
        subst h
        subst hd
        exact ⟨by simp, by simpa using lastIndexByte_none _ ds hl⟩
      · simp [hd] at h

/-- The first occurrence cuts the text in two around it. -/
theorem indexByte_some (c : Char) (s : List Char) (i : Nat)
    (h : indexByte c s = some i) :
    s = s.take i ++ c :: s.drop (i + 1) := by
  induction s generalizing i with
  | nil => simp [indexByte] at h
  | cons d ds ih =>
    simp only [indexByte] at h
    by_cases hd : d = c
    · simp only [hd, if_true, Option.some.injEq] at h
      subst h
      simp [hd]
    · simp only [hd, if_false, Option.map_eq_some'] at h
      obtain ⟨j, hj, rfl⟩ := h
      have := ih j hj
      simp only [List.take_succ_cons, List.drop_succ_cons, List.cons_append]
      rw [← this]

theorem SplitHostPort.finish_ok (s host : List Char) (i j k : Nat) (h p : String)
    (hf : SplitHostPort.finish s host i j k = .ok (h, p)) :
    h = ⟨host⟩ ∧ p = ⟨s.drop (i + 1)⟩ := by
  unfold SplitHostPort.finish at hf
  split at hf
  · cases hf
  · split at hf
    · cases hf
    · simp only [Except.ok.injEq, Prod.mk.injEq] at hf
      exact ⟨hf.1.symm, hf.2.symm⟩

/-- What a successful `SplitHostPort` returns: the address is `host:port`, or
`[host]:port`, for the host and port returned. -/
theorem SplitHostPort_ok (a host port : String) (h : SplitHostPort a = .ok (host, port)) :
    a.data = host.data ++ ':' :: port.data ∨
    a.data = '[' :: host.data ++ ']' :: ':' :: port.data := by
  unfold SplitHostPort at h
  simp only at h
  cases hl : lastIndexByte ':' a.data with
  | none => rw [hl] at h; cases h
  | some i =>
    rw [hl] at h
    simp only at h
    obtain ⟨hcut, _⟩ := lastIndexByte_some ':' a.data i hl
    by_cases hb : a.data.head? = some '['
    · rw [if_pos hb] at h
      cases he : indexByte ']' a.data with
      | none => rw [he] at h; cases h
      | some e =>
        rw [he] at h
        simp only at h
        by_cases h1 : e + 1 = a.data.length
        · rw [if_pos h1] at h; cases h
        · rw [if_neg h1] at h
          by_cases h2 : e + 1 = i
          · rw [if_pos h2] at h
            obtain ⟨rfl, rfl⟩ := SplitHostPort.finish_ok _ _ _ _ _ _ _ h
            right
            have hcut2 := indexByte_some ']' a.data e he
            cases hd : a.data with
            | nil => rw [hd] at hb; simp at hb
            | cons d ds =>
              rw [hd] at hb hcut hcut2
              simp only [List.head?_cons, Option.some.injEq] at hb
              subst hb
              subst h2
              cases e with
              | zero => simp at hcut2
              | succ e =>
                simp only [List.take_succ_cons, List.drop_succ_cons, List.cons_append,
                  List.cons.injEq, true_and] at hcut hcut2
                simp only [List.drop_succ_cons, List.drop_zero, Nat.add_sub_cancel,
                  List.cons.injEq, true_and]
                have e1 : ds.drop (e + 1) = ':' :: ds.drop (e + 1 + 1) := by
                  have := congrArg (List.drop (e + 1)) hcut
                  rw [List.drop_append_of_le_length (by
                    rw [List.length_take]
                    have hlen := congrArg List.length hcut
                    simp at hlen
                    omega)] at this
                  have hlen := congrArg List.length hcut
                  simp only [List.length_append, List.length_take, List.length_cons,
                    List.length_drop] at hlen
                  have ht : (ds.take (e + 1)).length = e + 1 := by
                    rw [List.length_take]; omega
                  rw [List.drop_of_length_le (le_of_eq ht), List.nil_append] at this
                  exact this
                rw [e1] at hcut2
                simpa using hcut2
          · rw [if_neg h2] at h
            split at h <;> cases h
    · rw [if_neg hb] at h
      split at h
      · cases h
      · obtain ⟨rfl, rfl⟩ := SplitHostPort.finish_ok _ _ _ _ _ _ _ h
        left
        exact hcut

/-! ## Client identity -/

/-- C8.  `RealClientIP(r, h)`: when `h` is non-empty and the request's value for
header `h` is non-empty after trimming, the result is that trimmed value,
whatever the peer address; otherwise it is the host of the peer address when
`net.SplitHostPort` accepts it (the address then being `host:port` or
`[host]:port`) and the raw peer address when it does not.  With no trusted
header configured the result does not depend on the request headers.  With
trusted header `X-Real-IP` and that header set to `9.9.9.9` the result is
`9.9.9.9`; with no trusted header and peer `1.2.3.4:5678` it is `1.2.3.4`. -/
theorem RealClientIP_spec (r : Request) (h : String) :
    RealClientIP r h =
      (if h ≠ "" ∧ TrimSpace (r.Header.Get h) ≠ "" then TrimSpace (r.Header.Get h)
       else
        match SplitHostPort r.RemoteAddr with
        | .ok (host, _) => host
        | .error _ => r.RemoteAddr) ∧
    (∀ addr : String, h ≠ "" → TrimSpace (r.Header.Get h) ≠ "" →
      RealClientIP { r with RemoteAddr := addr } h = TrimSpace (r.Header.Get h)) ∧
    (∀ hdr : Header, RealClientIP { r with Header := hdr } "" = RealClientIP r "") ∧
    (∀ host port : String, SplitHostPort r.RemoteAddr = .ok (host, port) →
      r.RemoteAddr.data = host.data ++ ':' :: port.data ∨
      r.RemoteAddr.data = '[' :: host.data ++ ']' :: ':' :: port.data) ∧
    (∀ addr : String,
      RealClientIP
        { Header := Header.Set [] "X-Real-IP" "9.9.9.9", RemoteAddr := addr, Host := "",
          TLS := false } "X-Real-IP" = "9.9.9.9") ∧
    RealClientIP
      { Header := Header.Set [] "X-Real-IP" "9.9.9.9", RemoteAddr := "1.2.3.4:5678",
        Host := "", TLS := false } "" = "1.2.3.4" := by
  refine ⟨?_, ?_, ?_, ?_, ?_, by decide⟩
  · unfold RealClientIP
    by_cases h1 : h = ""
    · simp [h1]
    · by_cases h2 : TrimSpace (r.Header.Get h) = ""
      · simp [h1, h2]
      · simp [h1, h2]
  · intro addr h1 h2
    simp [RealClientIP, h1, h2]
  · intro hdr
    simp [RealClientIP]
  · intro host port hs
    exact SplitHostPort_ok _ _ _ hs
  · intro addr
    have hg : Header.Get (Header.Set [] "X-Real-IP" "9.9.9.9") "X-Real-IP" = "9.9.9.9" :=
      Header.Get_Set_self _ _ _
    have ht : TrimSpace "9.9.9.9" = "9.9.9.9" := by decide
    have h1 : ("X-Real-IP" : String) ≠ "" := by decide
    have h2 : ("9.9.9.9" : String) ≠ "" := by decide
    simp [RealClientIP, hg, ht, h1, h2]

/-- The first piece of `Split` is the text before the first separator. -/
theorem Split_headD (s : String) (sep : Char) :
    (Split s sep).headD "" = ⟨s.data.takeWhile (fun c => c ≠ sep)⟩ := by
  unfold Split
  have h := splitChars_head sep s.data
  cases hs : splitChars sep s.data with
  | nil => exact absurd hs (splitChars_ne_nil sep s.data)
  | cons p ps =>
    rw [hs] at h
    simp only [List.head?_cons, Option.some.injEq] at h
    simp [h]

/-- The director alone: on the request it returns, `X-Real-IP` reads
`ClientIPFrom` of the inbound request, which is, when the inbound
`X-Forwarded-For` value is non-empty, the text of that value before its first
comma with the surrounding white space trimmed (`1.1.1.1` for
`1.1.1.1, 2.2.2.2`), and otherwise the host of the peer address, or the raw peer
address when it is not `host:port`.  What reaches the upstream is the request
after the rest of `ServeHTTP`; see `BuildProxyHandler_real_ip`. -/
theorem Director_sets_real_ip (origDirector : Request → Request) (target : URL)
    (r req : Request) :
    (Director origDirector target r req).Header.Get "X-Real-IP" = ClientIPFrom r ∧
    ClientIPFrom r =
      (if r.Header.Get "X-Forwarded-For" ≠ "" then
        TrimSpace ⟨(r.Header.Get "X-Forwarded-For").data.takeWhile (fun c => c ≠ ',')⟩
       else
        match SplitHostPort r.RemoteAddr with
        | .ok (host, _) => host
        | .error _ => r.RemoteAddr) ∧
    (r.Header.Get "X-Forwarded-For" = "1.1.1.1, 2.2.2.2" →
      (Director origDirector target r req).Header.Get "X-Real-IP" = "1.1.1.1") := by
  have h1 : (Director origDirector target r req).Header.Get "X-Real-IP" = ClientIPFrom r := by
    simp only [Director]
    exact Header.Get_Set_self _ _ _
  have h2 : ClientIPFrom r =
      (if r.Header.Get "X-Forwarded-For" ≠ "" then
        TrimSpace ⟨(r.Header.Get "X-Forwarded-For").data.takeWhile (fun c => c ≠ ',')⟩
       else
        match SplitHostPort r.RemoteAddr with
        | .ok (host, _) => host
        | .error _ => r.RemoteAddr) := by
    unfold ClientIPFrom
    by_cases hx : r.Header.Get "X-Forwarded-For" = ""
    · simp [hx]
    · simp only [ne_eq, hx, not_false_eq_true, if_true, Split_headD]
  refine ⟨h1, h2, ?_⟩
  intro hx
  rw [h1, h2, hx]
  have hne : ("1.1.1.1, 2.2.2.2" : String) ≠ "" := by decide
  rw [if_pos hne]
  decide

/-! ## Forwarded protocol -/

/-- One admission check, read off the store: the decision is that of `Allow` on
the key's limiter (a new one for a key without a bucket); afterwards the key's
bucket holds the limiter after `Allow` and the instant of the check as its
last-seen time; every other key's entry and the parameters are untouched. -/
theorem allowKey_effect (s : Store) (key : String) (now : Nat) :
    (allowKey s key now).2 = ((s.limiterOf key).Allow now).2 ∧
    (allowKey s key now).1.clients.get key =
      some { limiter := ((s.limiterOf key).Allow now).1, lastSeen := now } ∧
    (∀ k2, k2 ≠ key → (allowKey s key now).1.clients.get k2 = s.clients.get k2) ∧
    (allowKey s key now).1.rps = s.rps ∧
    (allowKey s key now).1.burst = s.burst ∧
    (allowKey s key now).1.lifetime = s.lifetime := by
  unfold allowKey getLimiter Store.limiterOf
  cases hg : s.clients.get key with
  | some c =>
    simp only [GoMap.get_set_self]
    refine ⟨trivial, trivial, ?_, trivial, trivial, trivial⟩
    intro k2 hk
    simp only [GoMap.get_set_ne _ _ _ _ hk]
  | none =>
    simp only [GoMap.get_set_self]
    refine ⟨trivial, trivial, ?_, trivial, trivial, trivial⟩
    intro k2 hk
    simp only [GoMap.get_set_ne _ _ _ _ hk]

theorem limiterOf_allowKey_self (s : Store) (key : String) (now : Nat) :
    (allowKey s key now).1.limiterOf key = ((s.limiterOf key).Allow now).1 := by
  have h := (allowKey_effect s key now).2.1
  simp only [Store.limiterOf] at h ⊢
  rw [h]

theorem limiterOf_allowKey_ne (s : Store) (key k2 : String) (now : Nat) (hne : k2 ≠ key) :
    (allowKey s key now).1.limiterOf k2 = s.limiterOf k2 := by
  obtain ⟨_, _, h3, h4, h5, _⟩ := allowKey_effect s key now
  simp only [Store.limiterOf, h3 k2 hne, h4, h5]

/-- A run of checks for one key leaves every other key's entry and the
parameters of the store as they were. -/
theorem allowKeySeq_frame (key : String) (ts : List Nat) (s : Store) :
    (∀ k2, k2 ≠ key → (allowKeySeq key ts s).2.clients.get k2 = s.clients.get k2) ∧
    (allowKeySeq key ts s).2.rps = s.rps ∧
    (allowKeySeq key ts s).2.burst = s.burst ∧
    (allowKeySeq key ts s).2.lifetime = s.lifetime := by
  induction ts generalizing s with
  | nil => simp [allowKeySeq]
  | cons t ts ih =>
    obtain ⟨_, _, h3, h4, h5, h6⟩ := allowKey_effect s key t
    obtain ⟨i1, i2, i3, i4⟩ := ih (allowKey s key t).1
    simp only [allowKeySeq]
    refine ⟨?_, by rw [i2, h4], by rw [i3, h5], by rw [i4, h6]⟩
    intro k2 hk
    rw [i1 k2 hk, h3 k2 hk]

/-- Checks for one key at one instant are the calls of `Allow` on its limiter. -/
theorem allowKeyN_eq_AllowN (key : String) (now : Nat) (n : Nat) (s : Store) :
    (allowKeyN key now n s).1 = (Limiter.AllowN now n (s.limiterOf key)).1 ∧
    (allowKeyN key now n s).2.limiterOf key = (Limiter.AllowN now n (s.limiterOf key)).2 := by
  unfold allowKeyN
  induction n generalizing s with
  | zero => simp [allowKeySeq, Limiter.AllowN]
  | succ n ih =>
    obtain ⟨i1, i2⟩ := ih (allowKey s key now).1
    simp only [List.replicate_succ, allowKeySeq, Limiter.AllowN]
    rw [limiterOf_allowKey_self] at i1 i2
    rw [i1, i2, (allowKey_effect s key now).1]
    exact ⟨rfl, rfl⟩

/-- A denied `Allow` leaves the limiter as it was: no token is deducted. -/
theorem Allow_false_unchanged (l : Limiter) (now : Nat) (h : (l.Allow now).2 = false) :
    (l.Allow now).1 = l := by
  unfold Limiter.Allow at h ⊢
  by_cases h1 : 1 ≤ l.available now
  · simp [h1] at h
  · simp [h1]

/-- With no refill to add (no time since the last consumption, or a full
bucket and a non-negative rate), a bucket holding `t ≤ burst` whole tokens
grants `Allow` exactly when `t ≥ 1`, and then holds `t - 1`. -/
theorem Allow_at_instant (l : Limiter) (now : Nat) (t : Nat) (ht : l.tokens = (t : ℚ))
    (htb : (t : Int) ≤ l.burst)
    (hc : l.last = now ∨ (l.tokens = (l.burst : ℚ) ∧ 0 ≤ l.limit)) :
    l.Allow now =
      if 1 ≤ t then ({ l with tokens := ((t - 1 : Nat) : ℚ), last := now }, true)
      else (l, false) := by
  have hav : l.available now = (t : ℚ) := by
    unfold Limiter.available
    have hle : (t : ℚ) ≤ (l.burst : ℚ) := by exact_mod_cast htb
    rcases hc with hc | ⟨hc1, hc2⟩
    · rw [hc, Nat.sub_self, ht]
      simp [hle]
    · have hnn : 0 ≤ l.limit * (((now - l.last : Nat) : ℚ) / 1000000000) := by positivity
      rw [hc1]
      rw [min_eq_left (by linarith)]
      rw [← hc1, ht]
  unfold Limiter.Allow
  simp only [hav]
  by_cases h1 : 1 ≤ t
  · have : (1 : ℚ) ≤ (t : ℚ) := by exact_mod_cast h1
    rw [if_pos this, if_pos h1]
    have e : (t : ℚ) - 1 = ((t - 1 : Nat) : ℚ) := by
      rw [Nat.cast_sub h1]; simp
    rw [e]
  · have : ¬ (1 : ℚ) ≤ (t : ℚ) := by
      intro h; exact h1 (by exact_mod_cast h)
    rw [if_neg this, if_neg h1]

/-- A bucket holding `t ≤ burst` whole tokens with no refill to add: `t + 1`
calls at one instant grant the first `t` and deny the last, and leave the bucket
empty. -/
theorem AllowN_drain (now : Nat) :
    ∀ (t : Nat) (l : Limiter), l.tokens = (t : ℚ) → (t : Int) ≤ l.burst →
      (l.last = now ∨ (l.tokens = (l.burst : ℚ) ∧ 0 ≤ l.limit)) →
      (Limiter.AllowN now t l).1 = List.replicate t true ∧
      (Limiter.AllowN now t l).2.tokens = 0 ∧
      (Limiter.AllowN now (t + 1) l).1 = List.replicate t true ++ [false] ∧
      (Limiter.AllowN now (t + 1) l).2 = (Limiter.AllowN now t l).2 := by
  intro t
  induction t with
  | zero =>
    intro l ht htb hc
    have h := Allow_at_instant l now 0 ht htb hc
    simp only [Nat.le_zero_eq, one_ne_zero, if_false] at h
    simp [Limiter.AllowN, h, ht]
  | succ t ih =>
    intro l ht htb hc
    have h := Allow_at_instant l now (t + 1) ht htb hc
    rw [if_pos (by omega)] at h
    have e : t + 1 - 1 = t := by omega
    rw [e] at h
    obtain ⟨i1, i2, i3, i4⟩ := ih { l with tokens := (t : ℚ), last := now } rfl
      (by simp only; omega) (Or.inl rfl)
    refine ⟨?_, ?_, ?_, ?_⟩
    · simp only [Limiter.AllowN, h, i1, List.replicate_succ]
    · simp only [Limiter.AllowN, h, i2]
    · rw [show t + 1 + 1 = (t + 1) + 1 from rfl]
      simp only [Limiter.AllowN, h] at i3 ⊢
      simp only [i3, List.replicate_succ, List.cons_append]
    · simp only [Limiter.AllowN, h] at i4 ⊢
      rw [i4]

/-- C2.  For a store with a positive rate and burst `b ≥ 0`, and a key without
a bucket, `b + 1` admission checks for the key with no time elapsing between
them admit the first `b` and deny the last; the denied check deducts no token
(the key's limiter after `b + 1` checks is the one after `b` checks, with no
token left).  With rate 1 per second and burst 2, three checks give
`true, true, false`. -/
theorem burst_then_deny (s : Store) (b : Nat) (key : String) (now : Nat)
    (hr : 0 < s.rps) (hb : s.burst = (b : Int)) (hk : s.clients.get key = none) :
    (allowKeyN key now (b + 1) s).1 = List.replicate b true ++ [false] ∧
    (allowKeyN key now b s).1 = List.replicate b true ∧
    (allowKeyN key now (b + 1) s).2.limiterOf key = (allowKeyN key now b s).2.limiterOf key ∧
    ((allowKeyN key now (b + 1) s).2.limiterOf key).tokens = 0 ∧
    (∀ k : String, (allowKeyN k now 3 (NewStore 1 2)).1 = [true, true, false]) := by
  have hdrain : ∀ (s0 : Store) (b0 : Nat) (k : String), 0 < s0.rps → s0.burst = (b0 : Int) →
      s0.clients.get k = none →
      (allowKeyN k now (b0 + 1) s0).1 = List.replicate b0 true ++ [false] ∧
      (allowKeyN k now b0 s0).1 = List.replicate b0 true ∧
      (allowKeyN k now (b0 + 1) s0).2.limiterOf k = (allowKeyN k now b0 s0).2.limiterOf k ∧
      ((allowKeyN k now (b0 + 1) s0).2.limiterOf k).tokens = 0 := by
    intro s0 b0 k hr0 hb0 hk0
    have hl : s0.limiterOf k = NewLimiter s0.rps s0.burst := by
      simp [Store.limiterOf, hk0]
    have hd := AllowN_drain now b0 (s0.limiterOf k)
      (by rw [hl, hb0]; simp [NewLimiter])
      (by rw [hl, hb0]; simp [NewLimiter])
      (Or.inr ⟨by rw [hl]; simp [NewLimiter], by rw [hl]; exact le_of_lt hr0⟩)
    obtain ⟨d1, d2, d3, d4⟩ := hd
    obtain ⟨a1, a2⟩ := allowKeyN_eq_AllowN k now (b0 + 1) s0
    obtain ⟨c1, c2⟩ := allowKeyN_eq_AllowN k now b0 s0
    refine ⟨by rw [a1, d3], by rw [c1, d1], by rw [a2, c2, d4], by rw [a2, d4, d2]⟩
  obtain ⟨h1, h2, h3, h4⟩ := hdrain s b key hr hb hk
  refine ⟨h1, h2, h3, h4, ?_⟩
  intro k
  exact (hdrain (NewStore 1 2) 2 k (by norm_num [NewStore]) (by simp [NewStore])
    (by simp [NewStore, GoMap.get])).1

/-- C2 at rate 1 per second, burst 2, key `1.2.3.4`, instant 7. -/
theorem burst_then_deny_witness :
    (allowKeyN "1.2.3.4" 7 (2 + 1) (NewStore 1 2)).1 = List.replicate 2 true ++ [false] :=
  (burst_then_deny (NewStore 1 2) 2 "1.2.3.4" 7 (by norm_num [NewStore]) (by simp [NewStore])
    (by simp [NewStore, GoMap.get])).1

/-- C3.  For distinct keys `k1 ≠ k2`, an admission check for `k1` leaves the
store's entry for `k2` (its presence, its limiter and its last-seen time) as it
was; so after any run of checks for `k1`, at any instants, the entry for `k2` is
the same, and the decision of a check for `k2` at an instant `t` and the entry it
leaves for `k2` are the ones it would have without that run. -/
theorem allowKey_per_key (s : Store) (k1 k2 : String) (now : Nat) (hne : k1 ≠ k2) :
    (allowKey s k1 now).1.clients.get k2 = s.clients.get k2 ∧
    (∀ (ts : List Nat) (t : Nat),
      (allowKeySeq k1 ts s).2.clients.get k2 = s.clients.get k2 ∧
      (allowKey (allowKeySeq k1 ts s).2 k2 t).2 = (allowKey s k2 t).2 ∧
      (allowKey (allowKeySeq k1 ts s).2 k2 t).1.clients.get k2 =
        (allowKey s k2 t).1.clients.get k2) := by
  have hne2 : k2 ≠ k1 := fun e => hne e.symm
  refine ⟨(allowKey_effect s k1 now).2.2.1 k2 hne2, ?_⟩
  intro ts t
  obtain ⟨f1, f2, f3, _⟩ := allowKeySeq_frame k1 ts s
  have hl : (allowKeySeq k1 ts s).2.limiterOf k2 = s.limiterOf k2 := by
    simp only [Store.limiterOf, f1 k2 hne2, f2, f3]
  obtain ⟨a1, a2, _⟩ := allowKey_effect (allowKeySeq k1 ts s).2 k2 t
  obtain ⟨b1, b2, _⟩ := allowKey_effect s k2 t
  refine ⟨f1 k2 hne2, ?_, ?_⟩
  · rw [a1, b1, hl]
  · rw [a2, b2, hl]

/-- C3 at the keys `1.2.3.4` and `5.6.7.8`: three checks exhaust the first key
and the decision for the second is what it is on the untouched store. -/
theorem allowKey_per_key_witness :
    (allowKey (NewStore 1 2) "1.2.3.4" 7).1.clients.get "5.6.7.8" =
      (NewStore 1 2).clients.get "5.6.7.8" ∧
    (allowKey (allowKeySeq "1.2.3.4" [7, 7, 7] (NewStore 1 2)).2 "5.6.7.8" 7).2 =
      (allowKey (NewStore 1 2) "5.6.7.8" 7).2 := by
  have h := allowKey_per_key (NewStore 1 2) "1.2.3.4" "5.6.7.8" 7 (by decide)
  exact ⟨h.1, (h.2 [7, 7, 7] 7).2.1⟩

/-! ## Reaper -/

/-- The saturation of `time.Since` does not change the comparison with a
lifetime inside the range of a duration. -/
theorem Since_gt_iff (L : Int) (h1 : -(2 ^ 63) ≤ L) (h2 : L < 2 ^ 63 - 1) (now t : Nat) :
    Since now t > L ↔ (now : Int) - (t : Int) > L := by
  unfold Since
  generalize (now : Int) - (t : Int) = d
  norm_num at h1 h2 ⊢
  omega

theorem keepFresh_idem (L : Int) (now : Nat) (o : Option clientLimiter) :
    keepFresh L now (keepFresh L now o) = keepFresh L now o := by
  cases o with
  | none => rfl
  | some v =>
    by_cases h : idleTooLong L now v.lastSeen = true
    · simp [keepFresh, h]
    · simp [keepFresh, h]

/-- One step of the reaper loop: the visited key's entry is kept or deleted by
its idle time, nothing else changes. -/
theorem CleanupLoop.visit_effect (now : Nat) (s : Store) (k : String)
    (h1 : -(2 ^ 63) ≤ s.lifetime) (h2 : s.lifetime < 2 ^ 63 - 1) :
    (CleanupLoop.visit now s k).lifetime = s.lifetime ∧
    (CleanupLoop.visit now s k).rps = s.rps ∧
    (CleanupLoop.visit now s k).burst = s.burst ∧
    ∀ k2, (CleanupLoop.visit now s k).clients.get k2 =
      if k2 = k then keepFresh s.lifetime now (s.clients.get k2) else s.clients.get k2 := by
  unfold CleanupLoop.visit
  cases hg : s.clients.get k with
  | none =>
    refine ⟨rfl, rfl, rfl, ?_⟩
    intro k2
    by_cases hk : k2 = k
    · subst hk
      simp [hg, keepFresh]
    · simp [hk]
  | some v =>
    by_cases hi : Since now v.lastSeen > s.lifetime
    · have hi2 : idleTooLong s.lifetime now v.lastSeen = true := by
        simp only [idleTooLong, decide_eq_true_eq]
        exact (Since_gt_iff _ h1 h2 _ _).1 hi
      simp only [hi, if_true]
      refine ⟨trivial, trivial, trivial, ?_⟩
      intro k2
      by_cases hk : k2 = k
      · subst hk
        simp [hg, keepFresh, hi2, GoMap.get_delete_self]
      · simp [hk, GoMap.get_delete_ne _ _ _ hk]
    · have hi2 : idleTooLong s.lifetime now v.lastSeen = false := by
        simp only [idleTooLong, decide_eq_false_iff_not]
        exact fun h => hi ((Since_gt_iff _ h1 h2 _ _).2 h)
      simp only [hi, if_false]
      refine ⟨trivial, trivial, trivial, ?_⟩
      intro k2
      by_cases hk : k2 = k
      · subst hk
        simp [hg, keepFresh, hi2]
      · simp [hk]

/-- The reaper loop over a list of keys. -/
theorem CleanupLoop.foldl_visit (now : Nat) (ks : List String) :
    ∀ (s : Store), -(2 ^ 63) ≤ s.lifetime → s.lifetime < 2 ^ 63 - 1 →
      (ks.foldl (CleanupLoop.visit now) s).lifetime = s.lifetime ∧
      (ks.foldl (CleanupLoop.visit now) s).rps = s.rps ∧
      (ks.foldl (CleanupLoop.visit now) s).burst = s.burst ∧
      ∀ k, (ks.foldl (CleanupLoop.visit now) s).clients.get k =
        if k ∈ ks then keepFresh s.lifetime now (s.clients.get k) else s.clients.get k := by
  induction ks with
  | nil => intro s _ _; simp
  | cons k1 ks ih =>
    intro s h1 h2
    obtain ⟨v1, v2, v3, v4⟩ := CleanupLoop.visit_effect now s k1 h1 h2
    obtain ⟨i1, i2, i3, i4⟩ := ih (CleanupLoop.visit now s k1) (by rw [v1]; exact h1)
      (by rw [v1]; exact h2)
    simp only [List.foldl_cons]
    refine ⟨by rw [i1, v1], by rw [i2, v2], by rw [i3, v3], ?_⟩
    intro k
    rw [i4 k, v4 k, v1]
    by_cases hk : k = k1
    · subst hk
      by_cases hm : k ∈ ks
      · simp [hm, keepFresh_idem]
      · simp [hm]
    · by_cases hm : k ∈ ks
      · simp [hm, hk]
      · simp [hm, hk]

theorem GoMap.mem_keys_of_get {V : Type} (m : GoMap V) (k : String) (v : V)
    (h : GoMap.get m k = some v) : k ∈ GoMap.keys m := by
  induction m with
  | nil => simp [GoMap.get] at h
  | cons e m ih =>
    obtain ⟨k1, v1⟩ := e
    by_cases hk : k1 = k
    · simp [GoMap.keys, hk]
    · simp only [GoMap.get, hk, if_false] at h
      have := ih h
      simp only [GoMap.keys] at this ⊢
      exact List.mem_cons_of_mem _ this

/-- C5.  One reaper pass at instant `t` over a store with the 5-minute lifetime
that `NewStore` sets: afterwards the map holds exactly the buckets with
`t - lastSeen ≤ 5 minutes`, each unchanged; every bucket with
`t - lastSeen > 5 minutes` is gone; no bucket is added; the parameters are
untouched.  A key whose last admission check was at an instant `t0` with
`t - t0 ≤ 5 minutes` has its bucket, last seen at `t0`, before and after the
pass. -/
theorem CleanupLoop_pass_spec (s : Store) (t : Nat) (hl : s.lifetime = 5 * Minute) :
    (∀ k, (CleanupLoop.pass s t).clients.get k = keepFresh (5 * Minute) t (s.clients.get k)) ∧
    (∀ k v, s.clients.get k = some v → (t : Int) - (v.lastSeen : Int) ≤ 5 * Minute →
      (CleanupLoop.pass s t).clients.get k = some v) ∧
    (∀ k v, s.clients.get k = some v → (t : Int) - (v.lastSeen : Int) > 5 * Minute →
      (CleanupLoop.pass s t).clients.get k = none) ∧
    (∀ k, s.clients.get k = none → (CleanupLoop.pass s t).clients.get k = none) ∧
    (∀ (key : String) (t0 : Nat), (t : Int) - (t0 : Int) ≤ 5 * Minute →
      ∃ c, (allowKey s key t0).1.clients.get key = some c ∧ c.lastSeen = t0 ∧
        (CleanupLoop.pass (allowKey s key t0).1 t).clients.get key = some c) ∧
    (CleanupLoop.pass s t).rps = s.rps ∧ (CleanupLoop.pass s t).burst = s.burst ∧
    (CleanupLoop.pass s t).lifetime = s.lifetime := by
  have hpass : ∀ (s0 : Store), s0.lifetime = 5 * Minute →
      ((CleanupLoop.pass s0 t).rps = s0.rps ∧ (CleanupLoop.pass s0 t).burst = s0.burst ∧
        (CleanupLoop.pass s0 t).lifetime = s0.lifetime) ∧
      ∀ k, (CleanupLoop.pass s0 t).clients.get k =
        keepFresh (5 * Minute) t (s0.clients.get k) := by
    intro s0 hl0
    obtain ⟨f1, f2, f3, f4⟩ := CleanupLoop.foldl_visit t s0.clients.keys s0
      (by rw [hl0]; norm_num [Minute]) (by rw [hl0]; norm_num [Minute])
    refine ⟨⟨f2, f3, f1⟩, ?_⟩
    intro k
    unfold CleanupLoop.pass
    rw [f4 k, hl0]
    by_cases hm : k ∈ s0.clients.keys
    · simp [hm]
    · rw [if_neg hm]
      cases hg : s0.clients.get k with
      | none => rfl
      | some v => exact absurd (GoMap.mem_keys_of_get _ _ _ hg) hm
  obtain ⟨⟨p1, p2, p3⟩, p4⟩ := hpass s hl
  refine ⟨p4, ?_, ?_, ?_, ?_, p1, p2, p3⟩
  · intro k v hg hle
    rw [p4 k, hg]
    have : idleTooLong (5 * Minute) t v.lastSeen = false := by
      simp only [idleTooLong, decide_eq_false_iff_not]
      omega
    simp [keepFresh, this]
  · intro k v hg hgt
    rw [p4 k, hg]
    have : idleTooLong (5 * Minute) t v.lastSeen = true := by
      simp only [idleTooLong, decide_eq_true_eq]
      exact hgt
    simp [keepFresh, this]
  · intro k hg
    rw [p4 k, hg]
    rfl
  · intro key t0 hle
    obtain ⟨_, a2, _, _, _, a6⟩ := allowKey_effect s key t0
    refine ⟨_, a2, rfl, ?_⟩
    rw [(hpass (allowKey s key t0).1 (by rw [a6, hl])).2 key, a2]
    have : idleTooLong (5 * Minute) t t0 = false := by
      simp only [idleTooLong, decide_eq_false_iff_not]
      omega
    simp [keepFresh, this]

/-- C5 at a store with two buckets, last seen at instants 5 and 7 (nanoseconds),
and a pass at 5 minutes and 6 nanoseconds: the first is removed, the second
survives unchanged. -/
theorem CleanupLoop_pass_spec_witness :
    (CleanupLoop.pass
      { clients := [("1.2.3.4", { limiter := NewLimiter 1 2, lastSeen := 5 }),
          ("5.6.7.8", { limiter := NewLimiter 1 2, lastSeen := 7 })],
        rps := 1, burst := 2, lifetime := 5 * Minute } 300000000006).clients.get "1.2.3.4" =
      none ∧
    (CleanupLoop.pass
      { clients := [("1.2.3.4", { limiter := NewLimiter 1 2, lastSeen := 5 }),
          ("5.6.7.8", { limiter := NewLimiter 1 2, lastSeen := 7 })],
        rps := 1, burst := 2, lifetime := 5 * Minute } 300000000006).clients.get "5.6.7.8" =
      some { limiter := NewLimiter 1 2, lastSeen := 7 } := by
  have h := CleanupLoop_pass_spec
    { clients := [("1.2.3.4", { limiter := NewLimiter 1 2, lastSeen := 5 }),
        ("5.6.7.8", { limiter := NewLimiter 1 2, lastSeen := 7 })],
      rps := 1, burst := 2, lifetime := 5 * Minute } 300000000006 rfl
  refine ⟨h.2.2.1 "1.2.3.4" _ rfl (by norm_num [Minute]), h.2.1 "5.6.7.8" _ ?_ (by norm_num [Minute])⟩
  simp [GoMap.get]

/-! ## Rate-limit middleware -/

/-- The response of `http.Error` on a writer that has not written its status:
the status is the code, sent with the headers as set before the call plus the
two it sets, and the body gains the message and a newline. -/
theorem httpError_fresh (w : ResponseWriter) (msg : String) (code : Nat)
    (hw : w.wrote = none) :
    ∃ h, (httpError w msg code).wrote = some (code, h) ∧
      h = ((w.header.Del "Content-Length").Set "Content-Type" "text/plain; charset=utf-8").Set
        "X-Content-Type-Options" "nosniff" ∧
      (httpError w msg code).body = w.body ++ (msg ++ "\n") := by
  refine ⟨_, ?_, rfl, ?_⟩
  · simp [httpError, ResponseWriter.Write, ResponseWriter.WriteHeader, hw]
  · simp [httpError, ResponseWriter.Write, ResponseWriter.WriteHeader, hw]

/-- C4.  The rate-limit middleware on a response whose status has not been
written, around any downstream handler `next` (instrumented with a count of its
invocations): the store is updated by the admission check for the request's
client key; when the check returns `true` the outcome is that of one invocation
of `next` on the request; when it returns `false` the downstream state is
untouched, `next` is not invoked, and the response has status 429, sent with
`Retry-After: 1`, and the plain-text status body.  So `next` is invoked once
exactly when the check returns `true`, and not at all otherwise. -/
theorem Middleware_gate {σ : Type} (s : Store) (trustedHeader : String) (next : Handler σ)
    (w : ResponseWriter) (r : Request) (now : Nat) (st : σ) (hw : w.wrote = none) :
    (Middleware s trustedHeader (counted next) w r now (st, 0)).1 =
      (allowKey s (RealClientIP r trustedHeader) now).1 ∧
    ((allowKey s (RealClientIP r trustedHeader) now).2 = true →
      Middleware s trustedHeader (counted next) w r now (st, 0) =
        ((allowKey s (RealClientIP r trustedHeader) now).1, (next w r st).1,
          (next w r st).2, 1)) ∧
    ((allowKey s (RealClientIP r trustedHeader) now).2 = false →
      (Middleware s trustedHeader (counted next) w r now (st, 0)).2.2 = (st, 0) ∧
      ∃ h, (Middleware s trustedHeader (counted next) w r now (st, 0)).2.1.wrote =
          some (429, h) ∧
        h.Get "Retry-After" = "1" ∧
        h.Get "Content-Type" = "text/plain; charset=utf-8" ∧
        (Middleware s trustedHeader (counted next) w r now (st, 0)).2.1.body =
          w.body ++ "Too Many Requests\n") ∧
    ((Middleware s trustedHeader (counted next) w r now (st, 0)).2.2.2 = 1 ↔
      (allowKey s (RealClientIP r trustedHeader) now).2 = true) ∧
    ((Middleware s trustedHeader (counted next) w r now (st, 0)).2.2.2 = 0 ↔
      (allowKey s (RealClientIP r trustedHeader) now).2 = false) := by
  cases ha : (allowKey s (RealClientIP r trustedHeader) now).2 with
  | true =>
    have hm : Middleware s trustedHeader (counted next) w r now (st, 0) =
        ((allowKey s (RealClientIP r trustedHeader) now).1, (next w r st).1,
          (next w r st).2, 1) := by
      simp [Middleware, ha, counted]
    rw [hm]
    simp
  | false =>
    have hm : Middleware s trustedHeader (counted next) w r now (st, 0) =
        ((allowKey s (RealClientIP r trustedHeader) now).1,
          httpError { w with header := w.header.Set "Retry-After" "1" }
            (StatusText StatusTooManyRequests) StatusTooManyRequests, (st, 0)) := by
      simp [Middleware, ha]
    rw [hm]
    obtain ⟨h, h1, h2, h3⟩ := httpError_fresh
      { w with header := w.header.Set "Retry-After" "1" }
      (StatusText StatusTooManyRequests) StatusTooManyRequests hw
    refine ⟨rfl, by simp, fun _ => ⟨rfl, h, h1, ?_, ?_, ?_⟩, by simp, by simp⟩
    · rw [h2]
      rw [Header.Get_Set_ne _ _ _ _ (by decide), Header.Get_Set_ne _ _ _ _ (by decide)]
      have hd : ∀ h0 : Header, (h0.Del "Content-Length").Get "Retry-After" =
          h0.Get "Retry-After" := by
        intro h0
        simp only [Header.Del, Header.Get]
        rw [GoMap.get_delete_ne _ _ _ (by decide)]
      rw [hd]
      exact Header.Get_Set_self _ _ _
    · rw [h2]
      rw [Header.Get_Set_ne _ _ _ _ (by decide)]
      exact Header.Get_Set_self _ _ _
    · rw [h3]
      rfl

/-- C4 at a store with burst 0, which denies the first check: the handler is not
invoked and the response is 429 with `Retry-After: 1`. -/
theorem Middleware_gate_witness :
    (Middleware (NewStore 1 0) ""
        (counted (fun w _ n => (w.Write "ok", n + 1) : Handler Nat))
        { header := [], wrote := none, body := "" }
        { Header := [], RemoteAddr := "1.2.3.4:5678", Host := "edge", TLS := false }
        0 (0, 0)).2.2 = (0, 0) ∧
    ∃ h, (Middleware (NewStore 1 0) ""
        (counted (fun w _ n => (w.Write "ok", n + 1) : Handler Nat))
        { header := [], wrote := none, body := "" }
        { Header := [], RemoteAddr := "1.2.3.4:5678", Host := "edge", TLS := false }
        0 (0, 0)).2.1.wrote = some (429, h) ∧
      h.Get "Retry-After" = "1" ∧
      h.Get "Content-Type" = "text/plain; charset=utf-8" ∧
      (Middleware (NewStore 1 0) ""
        (counted (fun w _ n => (w.Write "ok", n + 1) : Handler Nat))
        { header := [], wrote := none, body := "" }
        { Header := [], RemoteAddr := "1.2.3.4:5678", Host := "edge", TLS := false }
        0 (0, 0)).2.1.body = "" ++ "Too Many Requests\n" :=
  (Middleware_gate (NewStore 1 0) "" (fun w _ n => (w.Write "ok", n + 1) : Handler Nat)
    { header := [], wrote := none, body := "" }
    { Header := [], RemoteAddr := "1.2.3.4:5678", Host := "edge", TLS := false }
    0 0 rfl).2.2.1 (by
      rw [(allowKey_effect _ _ _).1]
      norm_num [Store.limiterOf, NewStore, GoMap.get, Limiter.Allow, Limiter.available,
        NewLimiter])

/-! ## Supplements -/

/-- Fairness while the counter is in range: any `n` consecutive calls on a
selector with `n ≥ 1` targets return every target. -/
theorem calls_fair_in_range (w : Nat) (hw : 1 ≤ w) (bs : List URL) (hbs : bs ≠ [])
    (i : Nat) (hi : ((i + bs.length : Nat) : Int) < 2 ^ (w - 1)) :
    ∃ us rr, calls w bs.length (some { backends := bs, idx := (i : Int) }) = some (us, rr) ∧
      ∀ u ∈ bs, some u ∈ us := by
  refine ⟨_, _, calls_in_range w hw bs hbs bs.length i hi, ?_⟩
  intro u hu
  obtain ⟨m, hm, rfl⟩ := List.getElem_of_mem hu
  have hn : 0 < bs.length := by omega
  have ha : i % bs.length < bs.length := Nat.mod_lt _ hn
  refine List.mem_map.2 ⟨(m + bs.length - i % bs.length) % bs.length,
    List.mem_range.2 (Nat.mod_lt _ hn), ?_⟩
  have e : (i + (m + bs.length - i % bs.length) % bs.length) % bs.length = m := by
    have e1 : (i + (m + bs.length - i % bs.length) % bs.length) % bs.length =
        (i % bs.length + (m + bs.length - i % bs.length)) % bs.length := by
      generalize (m + bs.length - i % bs.length) = x
      generalize bs.length = n
      simp [Nat.add_mod]
    have : i % bs.length + (m + bs.length - i % bs.length) = m + bs.length := by omega
    rw [e1, this, Nat.add_mod_right, Nat.mod_eq_of_lt hm]
  simp only [e]
  exact List.getElem?_eq_getElem hm

/-- What trimming does: the text is white space, then the trimmed text, then
white space, and the trimmed text neither starts nor ends with white space. -/
theorem trimChars_spec (cs : List Char) :
    (∃ pre post, cs = pre ++ trimChars cs ++ post ∧
      (∀ c ∈ pre, isSpace c = true) ∧ (∀ c ∈ post, isSpace c = true)) ∧
    (∀ c, (trimChars cs).head? = some c → isSpace c = false) ∧
    (∀ c, (trimChars cs).getLast? = some c → isSpace c = false) := by
  have h1 : cs = cs.takeWhile isSpace ++ cs.dropWhile isSpace :=
    (List.takeWhile_append_dropWhile isSpace cs).symm
  have h2 : (cs.dropWhile isSpace).reverse =
      (cs.dropWhile isSpace).reverse.takeWhile isSpace ++
        (cs.dropWhile isSpace).reverse.dropWhile isSpace :=
    (List.takeWhile_append_dropWhile isSpace _).symm
  have h3 : cs.dropWhile isSpace =
      trimChars cs ++ ((cs.dropWhile isSpace).reverse.takeWhile isSpace).reverse := by
    have := congrArg List.reverse h2
    rw [List.reverse_reverse, List.reverse_append] at this
    exact this
  have hlast : ∀ c, (trimChars cs).getLast? = some c → isSpace c = false := by
    intro c hc
    unfold trimChars at hc
    rw [List.getLast?_reverse] at hc
    have hne : (cs.dropWhile isSpace).reverse.dropWhile isSpace ≠ [] := by
      intro h; rw [h] at hc; simp at hc
    have := List.head_dropWhile_not isSpace _ hne
    rw [List.head?_eq_head hne] at hc
    simp only [Option.some.injEq] at hc
    rw [hc] at this
    simpa using this
  refine ⟨⟨cs.takeWhile isSpace,
    ((cs.dropWhile isSpace).reverse.takeWhile isSpace).reverse, ?_, ?_, ?_⟩, ?_, hlast⟩
  · rw [List.append_assoc, ← h3]
    exact h1
  · intro c hc
    exact List.mem_takeWhile_imp hc
  · intro c hc
    exact List.mem_takeWhile_imp (List.mem_reverse.1 hc)
  · intro c hc
    have hne : cs.dropWhile isSpace ≠ [] := by
      intro h
      rw [h] at h3
      have : trimChars cs = [] := by
        have := congrArg List.length h3
        simp only [List.length_nil, List.length_append] at this
        exact List.length_eq_zero.1 (by omega)
      rw [this] at hc
      simp at hc
    have hh := List.head_dropWhile_not isSpace cs hne
    have hd : (cs.dropWhile isSpace).head? = some c := by
      rw [h3]
      cases ht : trimChars cs with
      | nil => rw [ht] at hc; simp at hc
      | cons d ds =>
        rw [ht] at hc
        simpa using hc
    rw [List.head?_eq_head hne] at hd
    simp only [Option.some.injEq] at hd
    rw [hd] at hh
    simpa using hh

/-! ## The forwarded request -/

theorem GoMap.get_foldl_Del (names : List String) :
    ∀ (h : Header) (k : String),
      GoMap.get (names.foldl Header.Del h) k =
        if k ∈ names.map CanonicalMIMEHeaderKey then none else GoMap.get h k := by
  induction names with
  | nil => intro h k; simp
  | cons n ns ih =>
    intro h k
    simp only [List.foldl_cons, ih, List.map_cons, List.mem_cons]
    by_cases hk : k = CanonicalMIMEHeaderKey n
    · subst hk
      simp [Header.Del, GoMap.get_delete_self]
    · by_cases hm : k ∈ ns.map CanonicalMIMEHeaderKey
      · simp [hm]
      · simp only [hm, hk, if_false, false_or]
        exact GoMap.get_delete_ne _ _ _ hk

/-- The steps of `ServeHTTP` after the director touch, apart from the headers
named by `Connection`, only the hop-by-hop headers and `X-Forwarded-For` and
`User-Agent`: the entry of any other canonical name in the forwarded request is
what the director left, unless `Connection` names it, and then it is absent. -/
theorem ReverseProxy.outreq_entry (director : Request → Request) (req outreq : Request)
    (h : ReverseProxy.outreq director req = some outreq) (k : String)
    (hk : k ∉ "X-Forwarded-For" :: "User-Agent" :: hopHeaders) :
    GoMap.get outreq.Header k =
      if k ∈ (connectionNamed (director req).Header).map CanonicalMIMEHeaderKey then none
      else GoMap.get (director req).Header k := by
  have hTe : k ≠ CanonicalMIMEHeaderKey "Te" := by
    intro e; apply hk; rw [e]; decide
  have hCo : k ≠ CanonicalMIMEHeaderKey "Connection" := by
    intro e; apply hk; rw [e]; decide
  have hUp : k ≠ CanonicalMIMEHeaderKey "Upgrade" := by
    intro e; apply hk; rw [e]; decide
  have hXf : k ≠ CanonicalMIMEHeaderKey "X-Forwarded-For" := by
    intro e; apply hk; rw [e]; decide
  have hUa : k ≠ CanonicalMIMEHeaderKey "User-Agent" := by
    intro e; apply hk; rw [e]; decide
  have hhop : k ∉ hopHeaders.map CanonicalMIMEHeaderKey := by
    intro hm; apply hk
    have e : hopHeaders.map CanonicalMIMEHeaderKey = hopHeaders := by decide
    rw [e] at hm
    exact List.mem_cons_of_mem _ (List.mem_cons_of_mem _ hm)
  have h1 : GoMap.get (removeHopByHopHeaders (director req).Header) k =
      if k ∈ (connectionNamed (director req).Header).map CanonicalMIMEHeaderKey then none
      else GoMap.get (director req).Header k := by
    unfold removeHopByHopHeaders
    rw [GoMap.get_foldl_Del, if_neg hhop, GoMap.get_foldl_Del]
  rw [← h1]
  unfold ReverseProxy.outreq at h
  simp only at h
  split at h
  · cases h
  · simp only [Option.some.injEq] at h
    subst h
    simp only
    have s1 : ∀ (g : Header), GoMap.get
        (match GoMap.get g "User-Agent" with
          | some _ => g
          | none => g.Set "User-Agent" "") k = GoMap.get g k := by
      intro g
      split
      · rfl
      · exact GoMap.get_set_ne _ _ _ _ hUa
    have s2 : ∀ (g : Header) (a : String), GoMap.get
        (match SplitHostPort a with
          | .ok (clientIP, _) =>
            match GoMap.get g "X-Forwarded-For" with
            | none => g.Set "X-Forwarded-For" clientIP
            | some [] => g
            | some (p :: ps) => g.Set "X-Forwarded-For" (Join (p :: ps) ", " ++ ", " ++ clientIP)
          | .error _ => g) k = GoMap.get g k := by
      intro g a
      split
      · split
        · exact GoMap.get_set_ne _ _ _ _ hXf
        · rfl
        · exact GoMap.get_set_ne _ _ _ _ hXf
      · rfl
    have s3 : ∀ (g : Header) (c : Prop) [Decidable c] (v : String), GoMap.get
        (if c then (g.Set "Connection" "Upgrade").Set "Upgrade" v else g) k = GoMap.get g k := by
      intro g c _ v
      split
      · rw [Header.Set, GoMap.get_set_ne _ _ _ _ hUp, Header.Set, GoMap.get_set_ne _ _ _ _ hCo]
      · rfl
    have s4 : ∀ (g : Header) (c : Prop) [Decidable c], GoMap.get
        (if c then g.Set "Te" "trailers" else g) k = GoMap.get g k := by
      intro g c _
      split
      · exact GoMap.get_set_ne _ _ _ _ hTe
      · rfl
    rw [s1, s2, s3, s4]

/-- The director leaves the `Connection` header as the director of
`NewSingleHostReverseProxy` returned it. -/
theorem Director_Connection (origDirector : Request → Request) (target : URL)
    (r req : Request) :
    GoMap.get (Director origDirector target r req).Header "Connection" =
      GoMap.get (origDirector req).Header "Connection" := by
  simp only [Director, Header.Set]
  rw [GoMap.get_set_ne _ _ _ _ (by decide), GoMap.get_set_ne _ _ _ _ (by decide),
    GoMap.get_set_ne _ _ _ _ (by decide)]

/-- The `X-Real-IP` header of the forwarded request, for every inbound request
that is forwarded: it is `ClientIPFrom` of the inbound request unless a value of
the `Connection` header names `X-Real-IP` (in any letter case), and then the
forwarded request has no `X-Real-IP` header at all. -/
theorem BuildProxyHandler_real_ip (bits : Nat) (origDirector : URL → Request → Request)
    (rr rr1 : Option RoundRobin) (w : ResponseWriter) (r outreq : Request) (target : URL)
    (h : BuildProxyHandler bits origDirector rr w r = some (.forwarded target outreq, rr1)) :
    GoMap.get outreq.Header "X-Real-Ip" =
      (if "X-Real-Ip" ∈
          (connectionNamed (origDirector target r).Header).map CanonicalMIMEHeaderKey then none
       else some [ClientIPFrom r]) ∧
    outreq.Header.Get "X-Real-IP" =
      (if "X-Real-Ip" ∈
          (connectionNamed (origDirector target r).Header).map CanonicalMIMEHeaderKey then ""
       else ClientIPFrom r) := by
  have hout : ReverseProxy.outreq (Director (origDirector target) target r) r = some outreq := by
    unfold BuildProxyHandler at h
    cases hN : Next bits rr with
    | none => rw [hN] at h; cases h
    | some res =>
      obtain ⟨u, p⟩ := res
      rw [hN] at h
      cases u with
      | none => simp at h
      | some t =>
        simp only at h
        cases ho : ReverseProxy.outreq (Director (origDirector t) t r) r with
        | none => rw [ho] at h; simp at h
        | some o =>
          rw [ho] at h
          simp only [Option.some.injEq, Prod.mk.injEq, ProxyOutcome.forwarded.injEq] at h
          obtain ⟨⟨rfl, rfl⟩, _⟩ := h
          exact ho
  have hent := ReverseProxy.outreq_entry _ _ _ hout "X-Real-Ip" (by decide)
  have hconn : connectionNamed (Director (origDirector target) target r r).Header =
      connectionNamed (origDirector target r).Header := by
    simp only [connectionNamed, Director_Connection]
  have hset : GoMap.get (Director (origDirector target) target r r).Header "X-Real-Ip" =
      some [ClientIPFrom r] := by
    simp only [Director, Header.Set]
    have e : CanonicalMIMEHeaderKey "X-Real-IP" = "X-Real-Ip" := by decide
    rw [e, GoMap.get_set_self]
  rw [hconn, hset] at hent
  refine ⟨hent, ?_⟩
  have e : CanonicalMIMEHeaderKey "X-Real-IP" = "X-Real-Ip" := by decide
  simp only [Header.Get, e, hent]
  by_cases hm : "X-Real-Ip" ∈
      (connectionNamed (origDirector target r).Header).map CanonicalMIMEHeaderKey
  · simp only [hm, if_true]
  · simp only [hm, if_false]

/-- C9 (the code at the input where it departs from the claim).  The inbound
request has peer address `1.2.3.4:5678`, no `X-Forwarded-For`, and the header
`Connection: X-Real-IP`.  `ClientIPFrom` of it is `1.2.3.4` and the director
sets `X-Real-IP: 1.2.3.4`; the handler forwards the request to the target, and
the request handed to the transport, after `ServeHTTP` has removed the headers
that `Connection` names, has no `X-Real-IP` header. -/
theorem forwarded_request_without_real_ip :
    ClientIPFrom
      { Header := [("Connection", ["X-Real-IP"])], RemoteAddr := "1.2.3.4:5678",
        Host := "edge", TLS := false } = "1.2.3.4" ∧
    (Director (fun q => q) { Scheme := "http", Host := "10.0.0.1:9000", Path := "" }
      { Header := [("Connection", ["X-Real-IP"])], RemoteAddr := "1.2.3.4:5678",
        Host := "edge", TLS := false }
      { Header := [("Connection", ["X-Real-IP"])], RemoteAddr := "1.2.3.4:5678",
        Host := "edge", TLS := false }).Header.Get "X-Real-IP" = "1.2.3.4" ∧
    BuildProxyHandler 64 (fun _ q => q)
      (some { backends := [{ Scheme := "http", Host := "10.0.0.1:9000", Path := "" }],
              idx := 0 })
      { header := [], wrote := none, body := "" }
      { Header := [("Connection", ["X-Real-IP"])], RemoteAddr := "1.2.3.4:5678",
        Host := "edge", TLS := false } =
      some (.forwarded { Scheme := "http", Host := "10.0.0.1:9000", Path := "" }
          { Header := [("User-Agent", [""]), ("X-Forwarded-For", ["1.2.3.4"]),
              ("X-Forwarded-Proto", ["http"]), ("X-Forwarded-Host", ["edge"])],
            RemoteAddr := "1.2.3.4:5678", Host := "10.0.0.1:9000", TLS := false },
        some { backends := [{ Scheme := "http", Host := "10.0.0.1:9000", Path := "" }],
               idx := 1 }) ∧
    GoMap.get
      ([("User-Agent", [""]), ("X-Forwarded-For", ["1.2.3.4"]),
        ("X-Forwarded-Proto", ["http"]), ("X-Forwarded-Host", ["edge"])] : Header)
      "X-Real-Ip" = none ∧
    Header.Get
      [("User-Agent", [""]), ("X-Forwarded-For", ["1.2.3.4"]),
        ("X-Forwarded-Proto", ["http"]), ("X-Forwarded-Host", ["edge"])]
      "X-Real-IP" = "" := by
  refine ⟨by decide, by decide, by decide, by decide, by decide⟩

end Ngingo
